import Mathlib

/-!
Shallow embedding of the cryptocurrency matching engine
(src/models/order.py, src/matching_engine/order_book.py,
src/matching_engine/engine.py).

Modelling conventions:
* `Decimal` prices and quantities become `Int`, in units of 10⁻⁸ — the
  configured MIN_PRICE/MIN_ORDER_SIZE tick of src/config.py.  The engine's
  arithmetic on Decimal is exactly addition, subtraction, `min` and
  comparisons, all of which the unit embedding preserves, so the embedding
  is exact on every decimal aligned to the 10⁻⁸ grid.
* The order book's red-black tree (order_book.py) functions as a sorted map
  from price to a price level: every public operation goes through
  `_find_node` / `_find_min` / `_find_max` / `_find_successor` /
  `_find_predecessor`, which are plain BST queries, and insertion/deletion
  preserve the BST ordering (the unbalanced deletion only loses balance,
  not ordering).  We therefore embed the tree as an association list
  sorted by ascending price.  Note that the source keeps BOTH sides in this
  single tree: `self.bids` is `_find_max()` and `self.asks` is
  `_find_min()` of the same tree.
* Python objects are aliased (the book's deques and `active_orders` hold
  the same `Order` objects, mutated in place).  We model this by keying the
  book's FIFO queues by order id and keeping the record authority in the
  `active_orders` association list; ids are uuid4 in the source, hence
  unique across live orders.
* asyncio locking, logging and the callback sinks have no effect on engine
  state and are omitted.
-/

namespace MatchSpec

/-- Order side, from `OrderSide` in src/models/order.py. -/
inductive OrderSide where
  | buy
  | sell
deriving DecidableEq, Repr

/-- Order type, from `OrderType` in src/models/order.py. -/
inductive OrderType where
  | market
  | limit
  | ioc
  | fok
deriving DecidableEq, Repr

/-- Order status, from `OrderStatus` in src/models/order.py
(`partFilled` renders the source's PARTIALLY_FILLED). -/
inductive OrderStatus where
  | pending
  | partFilled
  | filled
  | cancelled
  | rejected
deriving DecidableEq, Repr

/-- An order record, from `Order` in src/models/order.py.  The uuid order id
becomes a `Nat`; timestamps and user ids play no role in the engine's logic
and are omitted. -/
structure Order where
  order_id : Nat
  symbol : String
  side : OrderSide
  order_type : OrderType
  quantity : Int
  price : Option Int
  filled_quantity : Int
  remaining_quantity : Int
  status : OrderStatus
deriving DecidableEq, Repr

/-- A trade execution record, from `TradeExecution` in src/models/order.py
(trade id, timestamps and fee omitted: never read by the engine). -/
structure Trade where
  symbol : String
  price : Int
  quantity : Int
  aggressor_side : OrderSide
  maker_order_id : Nat
  taker_order_id : Nat
deriving DecidableEq, Repr

/-- `Order.is_marketable` from src/models/order.py lines 67-80.  The source
checks MARKET, then IOC/FOK; a LIMIT order falls through to `return False`.
`best_bid`/`best_ask` are prices; the source guards them with Python
truthiness (`best_ask and ...`), so a zero price counts as absent. -/
def Order.is_marketable (o : Order) (best_bid best_ask : Option Int) : Bool :=
  if o.order_type = OrderType.market then true
  else if o.order_type = OrderType.ioc ∨ o.order_type = OrderType.fok then
    match o.price with
    | none => false
    | some p =>
        (decide (o.side = OrderSide.buy) &&
          (match best_ask with
           | some a => !(decide (a = 0)) && decide (a ≤ p)
           | none => false)) ||
        (decide (o.side = OrderSide.sell) &&
          (match best_bid with
           | some b => !(decide (b = 0)) && decide (p ≤ b)
           | none => false))
  else false

/-- A price level: the FIFO deque of resting orders (as ids) plus the
incrementally maintained aggregate, from `OrderBookNode` in
src/matching_engine/order_book.py. -/
structure Level where
  orders : List Nat
  total_quantity : Int
deriving DecidableEq, Repr

/-- The order book, from `OrderBook` in src/matching_engine/order_book.py.
`levels` is the red-black tree rendered as a price-ascending association
list; the source's cached `self.bids`/`self.asks` pointers are always
`_find_max()`/`_find_min()` of this tree and are modelled as the derived
views `Book.bestBidNode`/`Book.bestAskNode`. -/
structure Book where
  symbol : String
  levels : List (Int × Level)
  order_count : Int
  total_orders : Int
deriving DecidableEq, Repr

/-- `OrderBook._find_node`: locate the level at an exact price. -/
def findLevel (p : Int) : List (Int × Level) → Option Level
  | [] => none
  | (q, lv) :: rest => if p = q then some lv else findLevel p rest

/-- Insertion path of `OrderBook.add_order`: append to an existing level's
deque and bump its aggregate, or create a new level at its sorted position
(`_insert_node` keeps the BST ordered by price). -/
def insertLevel (p : Int) (oid : Nat) (rem : Int) : List (Int × Level) → List (Int × Level)
  | [] => [(p, ⟨[oid], rem⟩)]
  | (q, lv) :: rest =>
      if p < q then (p, ⟨[oid], rem⟩) :: (q, lv) :: rest
      else if p = q then (q, ⟨lv.orders ++ [oid], lv.total_quantity + rem⟩) :: rest
      else (q, lv) :: insertLevel p oid rem rest

/-- Replace the level stored at price `p`. -/
def setLevel (p : Int) (lv : Level) : List (Int × Level) → List (Int × Level)
  | [] => []
  | (q, l) :: rest => if p = q then (q, lv) :: rest else (q, l) :: setLevel p lv rest

/-- `OrderBook._delete_node`: drop the level at price `p` (the source's
deletion loses rebalancing, not the key set or ordering). -/
def deleteLevel (p : Int) : List (Int × Level) → List (Int × Level)
  | [] => []
  | (q, l) :: rest => if p = q then rest else (q, l) :: deleteLevel p rest

/-- `OrderBook.add_order` (order_book.py lines 196-227).  Fails only when the
order has no price (the side check can never fail for a well-typed side). -/
def Book.add_order (b : Book) (o : Order) : Book × Bool :=
  match o.price with
  | none => (b, false)
  | some p =>
      ({ b with
          levels := insertLevel p o.order_id o.remaining_quantity b.levels
          order_count := b.order_count + 1
          total_orders := b.total_orders + 1 }, true)

/-- `OrderBook.remove_order` (order_book.py lines 255-280).  Subtracts the
order's CURRENT `remaining_quantity` from the level aggregate (the matching
loop zeroes it first, so a post-match removal subtracts zero), erases the
order from the deque, and deletes the level if its deque empties. -/
def Book.remove_order (b : Book) (o : Order) : Book × Bool :=
  match o.price with
  | none => (b, false)
  | some p =>
      match findLevel p b.levels with
      | none => (b, false)
      | some lv =>
          if o.order_id ∈ lv.orders then
            let newOrders := lv.orders.erase o.order_id
            let newTotal := lv.total_quantity - o.remaining_quantity
            let levels' :=
              if newOrders.isEmpty then deleteLevel p b.levels
              else setLevel p ⟨newOrders, newTotal⟩ b.levels
            ({ b with levels := levels', order_count := b.order_count - 1 }, true)
          else (b, false)

/-- The source's cached `self.asks` pointer: `_find_min()` over the single
tree holding both sides. -/
def Book.bestAskNode (b : Book) : Option (Int × Level) := b.levels.head?

/-- The source's cached `self.bids` pointer: `_find_max()` over the single
tree holding both sides. -/
def Book.bestBidNode (b : Book) : Option (Int × Level) := b.levels.getLast?

/-- `OrderBookLevel` as produced by `get_best_bid_offer`. -/
structure BBOLevel where
  price : Int
  quantity : Int
  order_count : Nat
deriving DecidableEq, Repr

/-- Render a tree node as a BBO side. -/
def bboOfNode (pl : Int × Level) : BBOLevel :=
  ⟨pl.1, pl.2.total_quantity, pl.2.orders.length⟩

/-- `BestBidOffer` (timestamp and symbol omitted). -/
structure BBO where
  best_bid : Option BBOLevel
  best_ask : Option BBOLevel
deriving DecidableEq, Repr

/-- `OrderBook.get_best_bid_offer` (order_book.py lines 331-354). -/
def Book.bbo (b : Book) : BBO :=
  ⟨b.bestBidNode.map bboOfNode, b.bestAskNode.map bboOfNode⟩

/-- `OrderBook.get_marketable_orders` (order_book.py lines 391-408).  For a
BUY taker the source walks from `self.asks` (the tree minimum) by successor
while `price ≤ max_price`; for SELL from `self.bids` (the maximum) by
predecessor while `price ≥ max_price`; at each level it extends the whole
FIFO deque.  Walks are snapshots: the returned list does not alias the
book. -/
def Book.get_marketable_orders (b : Book) (side : OrderSide) (max_price : Int) : List Nat :=
  match side with
  | OrderSide.buy =>
      (b.levels.takeWhile (fun pl => decide (pl.1 ≤ max_price))).flatMap (fun pl => pl.2.orders)
  | OrderSide.sell =>
      (b.levels.reverse.takeWhile (fun pl => decide (max_price ≤ pl.1))).flatMap (fun pl => pl.2.orders)

/-- All order ids resting anywhere in the book, best ask to best bid. -/
def bookOrderIds (b : Book) : List Nat :=
  b.levels.flatMap (fun pl => pl.2.orders)

/-- Response status of the dicts returned by `submit_order`/`cancel_order`
("error" covers the `{"status": "error", ...}` shapes). -/
inductive RStatus where
  | error
  | pending
  | filled
  | partFilled
  | cancelled
  | rejected
deriving DecidableEq, Repr

/-- The result dict of a submit: status, fills, and the taker's filled and
remaining quantities (absent keys are rendered as `[]`/`0`). -/
structure SubmitResult where
  status : RStatus
  fills : List Trade
  filled_quantity : Int
  remaining_quantity : Int
deriving DecidableEq, Repr

/-- The result shape used for error/pending/cancelled/rejected responses,
which carry no fills. -/
def mkRes (s : RStatus) : SubmitResult := ⟨s, [], 0, 0⟩

/-- Engine state, from `MatchingEngine.__init__` (engine.py lines 31-41):
per-symbol books, the shared `active_orders` index, and the running flag. -/
structure Engine where
  books : List (String × Book)
  active_orders : List (Nat × Order)
  running : Bool
deriving DecidableEq, Repr

/-- Dict lookup in `self.order_books`. -/
def lookupBook : List (String × Book) → String → Option Book
  | [], _ => none
  | (s1, b1) :: rest, s => if s = s1 then some b1 else lookupBook rest s

/-- Dict assignment `self.order_books[s] = b` (key always present). -/
def setBookL : List (String × Book) → String → Book → List (String × Book)
  | [], _, _ => []
  | (s1, b1) :: rest, s, b => if s = s1 then (s1, b) :: rest else (s1, b1) :: setBookL rest s b

/-- Dict lookup in `self.active_orders`. -/
def lookupOrder : List (Nat × Order) → Nat → Option Order
  | [], _ => none
  | (k1, o1) :: rest, k => if k = k1 then some o1 else lookupOrder rest k

/-- Dict assignment `self.active_orders[k] = o`: replace in place, or append
a new key (Python dicts keep insertion order). -/
def upsertOrder : List (Nat × Order) → Nat → Order → List (Nat × Order)
  | [], k, o => [(k, o)]
  | (k1, o1) :: rest, k, o =>
      if k = k1 then (k1, o) :: rest else (k1, o1) :: upsertOrder rest k o

/-- Engine-level book update. -/
def Engine.setBook (e : Engine) (s : String) (b : Book) : Engine :=
  { e with books := setBookL e.books s b }

/-- Engine-level `active_orders` update. -/
def Engine.putOrder (e : Engine) (k : Nat) (o : Order) : Engine :=
  { e with active_orders := upsertOrder e.active_orders k o }

/-- Validation bound from src/config.py: MIN_ORDER_SIZE = 10⁻⁸, i.e. one
10⁻⁸ unit. -/
def MIN_ORDER_SIZE : Int := 1
/-- Validation bound from src/config.py: MAX_ORDER_SIZE = 10⁶, i.e. 10¹⁴
10⁻⁸ units. -/
def MAX_ORDER_SIZE : Int := 100000000000000
/-- Validation bound from src/config.py: MIN_PRICE = 10⁻⁸. -/
def MIN_PRICE : Int := 1
/-- Validation bound from src/config.py: MAX_PRICE = 10⁶. -/
def MAX_PRICE : Int := 100000000000000

/-- `MatchingEngine._validate_order` (engine.py lines 100-124): quantity
bounds, price bounds when a price is present, and the LIMIT-requires-price
check.  No price-presence check exists for IOC/FOK/MARKET here. -/
def validateOrder (o : Order) : Bool :=
  if o.quantity ≤ 0 then false
  else if o.quantity < MIN_ORDER_SIZE then false
  else if MAX_ORDER_SIZE < o.quantity then false
  else
    match o.price with
    | some p =>
        if p ≤ 0 then false
        else if p < MIN_PRICE then false
        else if MAX_PRICE < p then false
        else true
    | none => !(decide (o.order_type = OrderType.limit))

/-- Accumulator of the matching loop in `MatchingEngine._match_order`:
the incoming (taker) order, the book, the `active_orders` authority for
resting-order state, and the fills produced so far, in emission order. -/
structure MatchAcc where
  taker : Order
  book : Book
  active : List (Nat × Order)
  fills : List Trade
deriving DecidableEq, Repr

/-- One iteration of the `for resting_order in marketable_orders` loop of
`MatchingEngine._match_order` (engine.py lines 259-298).  The
`if order.remaining_quantity <= 0: break` guard is rendered as an identity
step, which agrees with `break` because no later step can then change the
state.  A resting order consumed to zero is removed from the book AFTER its
`remaining_quantity` was zeroed, so `remove_order` subtracts zero from the
level aggregate, and a partial fill never touches the aggregate at all —
both faithful to the source. -/
def matchStep (acc : MatchAcc) (oid : Nat) : MatchAcc :=
  if acc.taker.remaining_quantity ≤ 0 then acc
  else
    match lookupOrder acc.active oid with
    | none => acc
    | some resting =>
        let fillQty := min acc.taker.remaining_quantity resting.remaining_quantity
        let trade : Trade :=
          { symbol := acc.taker.symbol
            price := resting.price.getD 0
            quantity := fillQty
            aggressor_side := acc.taker.side
            maker_order_id := resting.order_id
            taker_order_id := acc.taker.order_id }
        let taker1 : Order :=
          { acc.taker with
              filled_quantity := acc.taker.filled_quantity + fillQty
              remaining_quantity := acc.taker.remaining_quantity - fillQty }
        let resting1 : Order :=
          { resting with
              filled_quantity := resting.filled_quantity + fillQty
              remaining_quantity := resting.remaining_quantity - fillQty }
        let taker2 : Order :=
          if taker1.remaining_quantity ≤ 0 then { taker1 with status := OrderStatus.filled }
          else if 0 < taker1.filled_quantity then { taker1 with status := OrderStatus.partFilled }
          else taker1
        let resting2 : Order :=
          if resting1.remaining_quantity ≤ 0 then { resting1 with status := OrderStatus.filled }
          else if 0 < resting1.filled_quantity then { resting1 with status := OrderStatus.partFilled }
          else resting1
        let book2 : Book :=
          if resting1.remaining_quantity ≤ 0 then (acc.book.remove_order resting2).1
          else acc.book
        { taker := taker2
          book := book2
          active := upsertOrder acc.active oid resting2
          fills := acc.fills ++ [trade] }

/-- The full matching walk of `MatchingEngine._match_order`. -/
def runMatch (acc : MatchAcc) (ids : List Nat) : MatchAcc :=
  ids.foldl matchStep acc

/-- Final response status computed at the end of `_match_order`. -/
def matchStatus (taker : Order) : RStatus :=
  if taker.remaining_quantity ≤ 0 then RStatus.filled
  else if 0 < taker.filled_quantity then RStatus.partFilled
  else RStatus.pending

/-- `MatchingEngine._match_order` (engine.py lines 242-318): walk the
marketable snapshot in the order produced by `get_marketable_orders` and
build the result dict. -/
def matchOrder (book : Book) (active : List (Nat × Order)) (taker : Order)
    (max_price : Int) : MatchAcc × SubmitResult :=
  let ids := book.get_marketable_orders taker.side max_price
  let acc := runMatch ⟨taker, book, active, []⟩ ids
  (acc, ⟨matchStatus acc.taker, acc.fills, acc.taker.filled_quantity,
         acc.taker.remaining_quantity⟩)

/-- Store a finished matching pass back into the engine: the mutated book,
the mutated resting orders (already in `acc.active`), and the taker object
(aliased by `self.active_orders[order.order_id]` in the source). -/
def writeBack (e : Engine) (sym : String) (acc : MatchAcc) : Engine :=
  ({ e with books := setBookL e.books sym acc.book,
            active_orders := upsertOrder acc.active acc.taker.order_id acc.taker })

/-- `MatchingEngine._process_market_order` (engine.py lines 126-140): take
`max_price` from the current best ask (BUY) or best bid (SELL) — i.e. only
the best level is in bound — and fail with "no liquidity" when that side of
the BBO is absent. -/
def processMarket (e : Engine) (o : Order) : Engine × SubmitResult :=
  match lookupBook e.books o.symbol with
  | none => (e, mkRes RStatus.error)
  | some book =>
      let bbo := book.bbo
      match (if o.side = OrderSide.buy then bbo.best_ask else bbo.best_bid) with
      | none => (e, mkRes RStatus.error)
      | some lvl =>
          let mr := matchOrder book e.active_orders o lvl.price
          (writeBack e o.symbol mr.1, mr.2)

/-- `MatchingEngine._process_limit_order` (engine.py lines 142-168).  Note
`Order.is_marketable` is False for every LIMIT order, so the match branch is
dead in the source; it is still modelled faithfully. -/
def processLimit (e : Engine) (o : Order) : Engine × SubmitResult :=
  match lookupBook e.books o.symbol with
  | none => (e, mkRes RStatus.error)
  | some book =>
      let bbo := book.bbo
      if o.is_marketable (bbo.best_bid.map (fun l => l.price))
          (bbo.best_ask.map (fun l => l.price)) then
        let mp := o.price.getD 0
        let mr := matchOrder book e.active_orders o mp
        let e1 := writeBack e o.symbol mr.1
        if mr.2.status = RStatus.partFilled ∧ 0 < mr.1.taker.remaining_quantity then
          match lookupBook e1.books o.symbol with
          | none => (e1, mr.2)
          | some b2 => (e1.setBook o.symbol (b2.add_order mr.1.taker).1, mr.2)
        else (e1, mr.2)
      else
        (e.setBook o.symbol (book.add_order o).1, ⟨RStatus.pending, [], o.filled_quantity, o.remaining_quantity⟩)

/-- `MatchingEngine._process_ioc_order` (engine.py lines 170-198).  A null
price is rejected here (after the order entered `active_orders`); the
cancel-remainder step mutates `order.status` AFTER the result dict was
built, so a partial fill returns "partially_filled" while the stored order
ends CANCELLED. -/
def processIoc (e : Engine) (o : Order) : Engine × SubmitResult :=
  match lookupBook e.books o.symbol with
  | none => (e, mkRes RStatus.error)
  | some book =>
      let bbo := book.bbo
      match o.price with
      | none =>
          (e.putOrder o.order_id { o with status := OrderStatus.rejected },
           mkRes RStatus.rejected)
      | some p =>
          if !(o.is_marketable (bbo.best_bid.map (fun l => l.price))
              (bbo.best_ask.map (fun l => l.price))) then
            (e.putOrder o.order_id { o with status := OrderStatus.cancelled },
             mkRes RStatus.cancelled)
          else
            let mr := matchOrder book e.active_orders o p
            let taker :=
              if 0 < mr.1.taker.remaining_quantity then
                { mr.1.taker with status := OrderStatus.cancelled }
              else mr.1.taker
            (writeBack e o.symbol { mr.1 with taker := taker }, mr.2)

/-- The FOK dry run: `total_available = sum(o.remaining_quantity for o in
marketable_orders)` (engine.py line 226). -/
def totalAvailable (active : List (Nat × Order)) (ids : List Nat) : Int :=
  (ids.filterMap (lookupOrder active)).foldl (fun s r => s + r.remaining_quantity) 0

/-- `MatchingEngine._process_fok_order` (engine.py lines 200-240): reject a
null price, cancel when not marketable, dry-run the marketable snapshot,
cancel when the available total is short, otherwise run the real walk. -/
def processFok (e : Engine) (o : Order) : Engine × SubmitResult :=
  match lookupBook e.books o.symbol with
  | none => (e, mkRes RStatus.error)
  | some book =>
      let bbo := book.bbo
      match o.price with
      | none =>
          (e.putOrder o.order_id { o with status := OrderStatus.rejected },
           mkRes RStatus.rejected)
      | some p =>
          if !(o.is_marketable (bbo.best_bid.map (fun l => l.price))
              (bbo.best_ask.map (fun l => l.price))) then
            (e.putOrder o.order_id { o with status := OrderStatus.cancelled },
             mkRes RStatus.cancelled)
          else
            let ids := book.get_marketable_orders o.side p
            if totalAvailable e.active_orders ids < o.quantity then
              (e.putOrder o.order_id { o with status := OrderStatus.cancelled },
               mkRes RStatus.cancelled)
            else
              let mr := matchOrder book e.active_orders o p
              let taker :=
                if 0 < mr.1.taker.remaining_quantity then
                  { mr.1.taker with status := OrderStatus.cancelled }
                else mr.1.taker
              (writeBack e o.symbol { mr.1 with taker := taker }, mr.2)

/-- `MatchingEngine.submit_order` (engine.py lines 63-98): running check,
symbol check, validation, THEN store into `active_orders`, then route by
type. -/
def submitOrder (e : Engine) (o : Order) : Engine × SubmitResult :=
  if !e.running then (e, mkRes RStatus.error)
  else
    match lookupBook e.books o.symbol with
    | none => (e, mkRes RStatus.error)
    | some _ =>
        if !(validateOrder o) then (e, mkRes RStatus.error)
        else
          let e1 := e.putOrder o.order_id o
          match o.order_type with
          | OrderType.market => processMarket e1 o
          | OrderType.limit => processLimit e1 o
          | OrderType.ioc => processIoc e1 o
          | OrderType.fok => processFok e1 o

/-- `MatchingEngine.cancel_order` (engine.py lines 320-340).  The terminal
guard checks only FILLED and CANCELLED — not REJECTED. -/
def cancelOrder (e : Engine) (oid : Nat) : Engine × RStatus :=
  match lookupOrder e.active_orders oid with
  | none => (e, RStatus.error)
  | some o =>
      if o.status = OrderStatus.filled ∨ o.status = OrderStatus.cancelled then
        (e, RStatus.error)
      else
        let e1 :=
          if o.order_type = OrderType.limit ∧ 0 < o.remaining_quantity then
            match lookupBook e.books o.symbol with
            | none => e
            | some b => e.setBook o.symbol (b.remove_order o).1
          else e
        (e1.putOrder oid { o with status := OrderStatus.cancelled }, RStatus.cancelled)

/-- `MatchingEngine.get_order` (engine.py lines 367-369). -/
def getOrder (e : Engine) (oid : Nat) : Option Order :=
  lookupOrder e.active_orders oid

/-- An empty book for one symbol. -/
def emptyBook (s : String) : Book := ⟨s, [], 0, 0⟩

/-- The engine as built by `MatchingEngine.__init__` after `initialize()`:
one empty book per symbol of `settings.SUPPORTED_SYMBOLS`, running. -/
def startEngine : Engine :=
  { books :=
      [("BTC-USDT", emptyBook "BTC-USDT"), ("ETH-USDT", emptyBook "ETH-USDT"),
       ("BNB-USDT", emptyBook "BNB-USDT"), ("ADA-USDT", emptyBook "ADA-USDT"),
       ("SOL-USDT", emptyBook "SOL-USDT"), ("XRP-USDT", emptyBook "XRP-USDT"),
       ("DOT-USDT", emptyBook "DOT-USDT"), ("DOGE-USDT", emptyBook "DOGE-USDT"),
       ("AVAX-USDT", emptyBook "AVAX-USDT"), ("MATIC-USDT", emptyBook "MATIC-USDT")]
    active_orders := []
    running := true }

/-- A freshly constructed order, as pydantic builds it: `filled_quantity`
zero, `remaining_quantity = quantity`, status PENDING. -/
def mkOrder (oid : Nat) (sd : OrderSide) (ty : OrderType) (q : Int) (p : Option Int) : Order :=
  { order_id := oid, symbol := "BTC-USDT", side := sd, order_type := ty,
    quantity := q, price := p, filled_quantity := 0, remaining_quantity := q,
    status := OrderStatus.pending }

/-- An order record with its status replaced. -/
def withStatus (o : Order) (s : OrderStatus) : Order := { o with status := s }

/-- Sum of the quantities of a list of trades. -/
def fillsSum (l : List Trade) : Int := (l.map (fun t => t.quantity)).sum

/-- The limit price of the resting order registered under an id (`0` for a
missing id or a missing price; resting orders always carry one). -/
def restingPrice (active : List (Nat × Order)) (oid : Nat) : Int :=
  match lookupOrder active oid with
  | some r => r.price.getD 0
  | none => 0

/-- Executable strict-ascending check on a price list. -/
def ascChainB : List Int → Bool
  | [] => true
  | [_] => true
  | x :: y :: rest => decide (x < y) && ascChainB (y :: rest)

/-- Executable well-formedness of a book against the `active_orders`
authority: strictly ascending level prices, non-empty level queues, no
duplicated resting ids, and every resting id registered with its own id,
the level's price, and positive remaining quantity.  These all hold in
every state the engine can reach. -/
def wellFormed (b : Book) (active : List (Nat × Order)) : Bool :=
  ascChainB (b.levels.map Prod.fst) &&
  decide ((bookOrderIds b).Nodup) &&
  b.levels.all (fun pl =>
    !pl.2.orders.isEmpty &&
    pl.2.orders.all (fun oid =>
      match lookupOrder active oid with
      | some r =>
          decide (r.order_id = oid) && decide (r.price = some pl.1) &&
          decide (0 < r.remaining_quantity)
      | none => false))

section DictLemmas

theorem lookup_upsert_self (a : List (Nat × Order)) (k : Nat) (o : Order) :
    lookupOrder (upsertOrder a k o) k = some o := by
  induction a with
  | nil => simp [upsertOrder, lookupOrder]
  | cons hd tl ih =>
      obtain ⟨k1, o1⟩ := hd
      by_cases h : k = k1
      · simp [upsertOrder, lookupOrder, h]
      · simp [upsertOrder, lookupOrder, h, ih]

theorem lookup_upsert_ne (a : List (Nat × Order)) (k j : Nat) (o : Order)
    (h : k ≠ j) : lookupOrder (upsertOrder a j o) k = lookupOrder a k := by
  induction a with
  | nil => simp [upsertOrder, lookupOrder, h]
  | cons hd tl ih =>
      obtain ⟨k1, o1⟩ := hd
      by_cases h1 : j = k1
      · subst h1
        simp [upsertOrder, lookupOrder, h]
      · by_cases h2 : k = k1
        · simp [upsertOrder, lookupOrder, h1, h2]
        · simp [upsertOrder, lookupOrder, h1, h2, ih]

theorem lookupBook_setBookL_self (bs : List (String × Book)) (s : String)
    (b0 b : Book) (h : lookupBook bs s = some b0) :
    lookupBook (setBookL bs s b) s = some b := by
  induction bs with
  | nil => simp [lookupBook] at h
  | cons hd tl ih =>
      obtain ⟨s1, b1⟩ := hd
      by_cases hs : s = s1
      · simp [lookupBook, setBookL, hs]
      · simp [lookupBook, setBookL, hs] at h ⊢
        exact ih h

theorem lookupBook_setBookL_ne (bs : List (String × Book)) (s t : String)
    (b : Book) (h : s ≠ t) :
    lookupBook (setBookL bs t b) s = lookupBook bs s := by
  induction bs with
  | nil => simp [setBookL, lookupBook]
  | cons hd tl ih =>
      obtain ⟨s1, b1⟩ := hd
      by_cases h1 : t = s1
      · subst h1
        simp [setBookL, lookupBook, h]
      · by_cases h2 : s = s1
        · simp [setBookL, lookupBook, h1, h2]
        · simp [setBookL, lookupBook, h1, h2, ih]

theorem putOrder_books (e : Engine) (k : Nat) (o : Order) :
    (e.putOrder k o).books = e.books := rfl

end DictLemmas

section WellFormedLemmas

theorem ascChainB_sound : ∀ l : List Int, ascChainB l = true →
    List.Chain' (fun x y => x < y) l := by
  intro l
  induction l with
  | nil => intro _; simp
  | cons x rest ih =>
      cases rest with
      | nil => intro _; simp
      | cons y rest2 =>
          intro h
          unfold ascChainB at h
          simp only [Bool.and_eq_true, decide_eq_true_eq] at h
          exact List.chain'_cons.mpr ⟨h.1, ih h.2⟩

theorem wf_sorted {b : Book} {a : List (Nat × Order)} (h : wellFormed b a = true) :
    List.Chain' (fun x y => x < y) (b.levels.map Prod.fst) := by
  unfold wellFormed at h
  simp only [Bool.and_eq_true, decide_eq_true_eq] at h
  exact ascChainB_sound _ h.1.1

theorem wf_nodup {b : Book} {a : List (Nat × Order)} (h : wellFormed b a = true) :
    (bookOrderIds b).Nodup := by
  unfold wellFormed at h
  simp only [Bool.and_eq_true, decide_eq_true_eq] at h
  exact h.1.2

theorem wf_level_queues {b : Book} {a : List (Nat × Order)} (h : wellFormed b a = true) :
    ∀ pl ∈ b.levels, pl.2.orders ≠ [] := by
  unfold wellFormed at h
  simp only [Bool.and_eq_true, List.all_eq_true] at h
  intro pl hpl
  have := (h.2 pl hpl)
  simp only [Bool.and_eq_true] at this
  intro hnil
  rw [hnil] at this
  simp [List.isEmpty] at this

theorem wf_coherent {b : Book} {a : List (Nat × Order)} (h : wellFormed b a = true) :
    ∀ pl ∈ b.levels, ∀ oid ∈ pl.2.orders, ∃ r,
      lookupOrder a oid = some r ∧ r.order_id = oid ∧ r.price = some pl.1 ∧
      0 < r.remaining_quantity := by
  unfold wellFormed at h
  simp only [Bool.and_eq_true, List.all_eq_true] at h
  intro pl hpl oid hoid
  have h2 := (h.2 pl hpl)
  simp only [Bool.and_eq_true, List.all_eq_true] at h2
  have h3 := h2.2 oid hoid
  cases hl : lookupOrder a oid with
  | none => rw [hl] at h3; simp at h3
  | some r =>
      rw [hl] at h3
      simp only [Bool.and_eq_true, decide_eq_true_eq] at h3
      exact ⟨r, rfl, h3.1.1, h3.1.2, h3.2⟩

/-- Every id resting in a level belongs to `bookOrderIds`. -/
theorem mem_bookOrderIds {b : Book} {p : Int} {lv : Level} {oid : Nat}
    (hpl : (p, lv) ∈ b.levels) (hoid : oid ∈ lv.orders) : oid ∈ bookOrderIds b := by
  unfold bookOrderIds
  exact List.mem_flatMap.mpr ⟨(p, lv), hpl, hoid⟩

end WellFormedLemmas

section StepLemmas

theorem matchStep_taker_fixed (acc : MatchAcc) (oid : Nat) :
    (matchStep acc oid).taker.order_id = acc.taker.order_id ∧
    (matchStep acc oid).taker.symbol = acc.taker.symbol ∧
    (matchStep acc oid).taker.side = acc.taker.side ∧
    (matchStep acc oid).taker.price = acc.taker.price ∧
    (matchStep acc oid).taker.quantity = acc.taker.quantity := by
  unfold matchStep
  split
  · exact ⟨rfl, rfl, rfl, rfl, rfl⟩
  · cases lookupOrder acc.active oid with
    | none => exact ⟨rfl, rfl, rfl, rfl, rfl⟩
    | some r =>
        simp only
        split
        · exact ⟨rfl, rfl, rfl, rfl, rfl⟩
        · split
          · exact ⟨rfl, rfl, rfl, rfl, rfl⟩
          · exact ⟨rfl, rfl, rfl, rfl, rfl⟩

theorem matchStep_active_ne (acc : MatchAcc) (oid k : Nat) (h : k ≠ oid) :
    lookupOrder (matchStep acc oid).active k = lookupOrder acc.active k := by
  unfold matchStep
  split
  · rfl
  · cases lookupOrder acc.active oid with
    | none => rfl
    | some r => exact lookup_upsert_ne _ _ _ _ h

theorem matchStep_priceId (acc : MatchAcc) (oid k : Nat) :
    (lookupOrder (matchStep acc oid).active k).map (fun r => (r.order_id, r.price)) =
      (lookupOrder acc.active k).map (fun r => (r.order_id, r.price)) := by
  by_cases hk : k = oid
  · subst hk
    by_cases hrem : acc.taker.remaining_quantity ≤ 0
    · simp [matchStep, hrem]
    · cases hl : lookupOrder acc.active k with
      | none => simp [matchStep, hrem, hl]
      | some r =>
          simp only [matchStep, hrem, if_false, hl, lookup_upsert_self]
          split_ifs <;> simp [lookup_upsert_self, hl]
  · rw [matchStep_active_ne acc oid k hk]

theorem matchStep_fills (acc : MatchAcc) (oid : Nat) :
    ∃ s, (matchStep acc oid).fills = acc.fills ++ s := by
  by_cases hrem : acc.taker.remaining_quantity ≤ 0
  · exact ⟨[], by simp [matchStep, hrem]⟩
  · cases hl : lookupOrder acc.active oid with
    | none => exact ⟨[], by simp [matchStep, hrem, hl]⟩
    | some r =>
        exact ⟨[{ symbol := acc.taker.symbol, price := r.price.getD 0,
                  quantity := min acc.taker.remaining_quantity r.remaining_quantity,
                  aggressor_side := acc.taker.side, maker_order_id := r.order_id,
                  taker_order_id := acc.taker.order_id }],
          by simp [matchStep, hrem, hl]⟩

/-- `findLevel` only answers with a level actually stored in the list. -/
theorem findLevel_mem (p : Int) (ls : List (Int × Level)) (lv : Level)
    (h : findLevel p ls = some lv) : (p, lv) ∈ ls := by
  induction ls with
  | nil => simp [findLevel] at h
  | cons hd tl ih =>
      obtain ⟨q, l⟩ := hd
      by_cases hp : p = q
      · rw [findLevel, if_pos hp] at h
        cases h
        subst hp
        exact List.mem_cons_self _ _
      · rw [findLevel, if_neg hp] at h
        exact List.mem_cons_of_mem _ (ih h)

theorem deleteLevel_sublist (p : Int) (ls : List (Int × Level)) :
    (deleteLevel p ls).Sublist ls := by
  induction ls with
  | nil => simp [deleteLevel]
  | cons hd tl ih =>
      obtain ⟨q, lv⟩ := hd
      by_cases hp : p = q
      · simp only [deleteLevel, if_pos hp]
        exact List.sublist_cons_self _ _
      · simp only [deleteLevel, if_neg hp]
        exact ih.cons₂ _

theorem flatMap_sublist {l1 l2 : List (Int × Level)} (h : l1.Sublist l2)
    (f : (Int × Level) → List Nat) : (l1.flatMap f).Sublist (l2.flatMap f) := by
  induction h with
  | slnil => simp
  | cons a _ ih =>
      simpa using ih.trans (List.sublist_append_right (f a) _)
  | cons₂ a _ ih =>
      simpa using (List.Sublist.refl (f a)).append ih

theorem setLevel_mem (p : Int) (lv' : Level) (ls : List (Int × Level)) (x : Nat)
    (hx : x ∈ (setLevel p lv' ls).flatMap (fun pl => pl.2.orders)) :
    x ∈ ls.flatMap (fun pl => pl.2.orders) ∨ x ∈ lv'.orders := by
  induction ls with
  | nil => simp [setLevel] at hx
  | cons hd tl ih =>
      obtain ⟨q, l⟩ := hd
      by_cases hp : p = q
      · simp only [setLevel, if_pos hp, List.flatMap_cons, List.mem_append] at hx
        rcases hx with hx | hx
        · exact Or.inr hx
        · exact Or.inl (by simp only [List.flatMap_cons, List.mem_append]; exact Or.inr hx)
      · simp only [setLevel, if_neg hp, List.flatMap_cons, List.mem_append] at hx
        rcases hx with hx | hx
        · exact Or.inl (by simp only [List.flatMap_cons, List.mem_append]; exact Or.inl hx)
        · rcases ih hx with h | h
          · exact Or.inl (by simp only [List.flatMap_cons, List.mem_append]; exact Or.inr h)
          · exact Or.inr h

theorem remove_order_ids_subset (b : Book) (o : Order) :
    ∀ x, x ∈ bookOrderIds (b.remove_order o).1 → x ∈ bookOrderIds b := by
  intro x hx
  rcases hp : o.price with _ | p
  · simpa [Book.remove_order, hp] using hx
  · rcases hf : findLevel p b.levels with _ | lv
    · simpa [Book.remove_order, hp, hf] using hx
    · by_cases hmem : o.order_id ∈ lv.orders
      · have hx' : x ∈ (if (lv.orders.erase o.order_id).isEmpty then deleteLevel p b.levels
            else setLevel p ⟨lv.orders.erase o.order_id,
              lv.total_quantity - o.remaining_quantity⟩ b.levels).flatMap
            (fun pl => pl.2.orders) := by
          simpa [Book.remove_order, hp, hf, hmem, bookOrderIds] using hx
        by_cases hempty : (lv.orders.erase o.order_id).isEmpty
        · rw [if_pos hempty] at hx'
          exact (flatMap_sublist (deleteLevel_sublist p b.levels) _).mem hx'
        · rw [if_neg hempty] at hx'
          rcases setLevel_mem p _ b.levels x hx' with h | h
          · exact h
          · exact mem_bookOrderIds (findLevel_mem p b.levels lv hf)
              ((lv.orders.erase_sublist o.order_id).mem h)
      · simpa [Book.remove_order, hp, hf, hmem] using hx

theorem matchStep_book_subset (acc : MatchAcc) (oid : Nat) :
    ∀ x, x ∈ bookOrderIds (matchStep acc oid).book → x ∈ bookOrderIds acc.book := by
  intro x hx
  by_cases hrem : acc.taker.remaining_quantity ≤ 0
  · simpa [matchStep, hrem] using hx
  · cases hl : lookupOrder acc.active oid with
    | none => simpa [matchStep, hrem, hl] using hx
    | some r =>
        simp only [matchStep, hrem, if_false, hl] at hx
        by_cases hfull : r.remaining_quantity -
            min acc.taker.remaining_quantity r.remaining_quantity ≤ 0
        · simp only [hfull, if_pos] at hx
          exact remove_order_ids_subset _ _ x (by simpa using hx)
        · simpa [hfull] using hx

end StepLemmas

section RunLemmas

theorem runMatch_cons (acc : MatchAcc) (oid : Nat) (ids : List Nat) :
    runMatch acc (oid :: ids) = runMatch (matchStep acc oid) ids := rfl

theorem runMatch_nil (acc : MatchAcc) : runMatch acc [] = acc := rfl

theorem run_break (ids : List Nat) (acc : MatchAcc)
    (h : acc.taker.remaining_quantity ≤ 0) : runMatch acc ids = acc := by
  induction ids with
  | nil => rfl
  | cons oid rest ih =>
      rw [runMatch_cons]
      have hstep : matchStep acc oid = acc := by
        unfold matchStep
        rw [if_pos h]
      rw [hstep]
      exact ih

theorem run_taker_fixed (ids : List Nat) (acc : MatchAcc) :
    (runMatch acc ids).taker.order_id = acc.taker.order_id ∧
    (runMatch acc ids).taker.symbol = acc.taker.symbol ∧
    (runMatch acc ids).taker.side = acc.taker.side ∧
    (runMatch acc ids).taker.price = acc.taker.price ∧
    (runMatch acc ids).taker.quantity = acc.taker.quantity := by
  induction ids generalizing acc with
  | nil => exact ⟨rfl, rfl, rfl, rfl, rfl⟩
  | cons oid rest ih =>
      rw [runMatch_cons]
      obtain ⟨h1, h2, h3, h4, h5⟩ := ih (matchStep acc oid)
      obtain ⟨g1, g2, g3, g4, g5⟩ := matchStep_taker_fixed acc oid
      exact ⟨h1.trans g1, h2.trans g2, h3.trans g3, h4.trans g4, h5.trans g5⟩

theorem run_active_ne (ids : List Nat) (acc : MatchAcc) (k : Nat) (h : k ∉ ids) :
    lookupOrder (runMatch acc ids).active k = lookupOrder acc.active k := by
  induction ids generalizing acc with
  | nil => rfl
  | cons oid rest ih =>
      rw [runMatch_cons]
      have h1 : k ∉ rest := fun hk => h (List.mem_cons_of_mem _ hk)
      have h2 : k ≠ oid := fun hk => h (hk ▸ List.mem_cons_self _ _)
      rw [ih (matchStep acc oid) h1, matchStep_active_ne acc oid k h2]

theorem run_priceId (ids : List Nat) (acc : MatchAcc) (k : Nat) :
    (lookupOrder (runMatch acc ids).active k).map (fun r => (r.order_id, r.price)) =
      (lookupOrder acc.active k).map (fun r => (r.order_id, r.price)) := by
  induction ids generalizing acc with
  | nil => rfl
  | cons oid rest ih =>
      rw [runMatch_cons]
      rw [ih (matchStep acc oid), matchStep_priceId]

theorem run_fills_append (ids : List Nat) (acc : MatchAcc) :
    ∃ tl, (runMatch acc ids).fills = acc.fills ++ tl := by
  induction ids generalizing acc with
  | nil => exact ⟨[], by simp [runMatch_nil]⟩
  | cons oid rest ih =>
      rw [runMatch_cons]
      obtain ⟨tl, htl⟩ := ih (matchStep acc oid)
      obtain ⟨s, hs⟩ := matchStep_fills acc oid
      exact ⟨s ++ tl, by rw [htl, hs, List.append_assoc]⟩

theorem fillsSum_append (l1 l2 : List Trade) :
    fillsSum (l1 ++ l2) = fillsSum l1 + fillsSum l2 := by
  unfold fillsSum
  simp

theorem matchStep_conserve (acc : MatchAcc) (oid : Nat) :
    (matchStep acc oid).taker.remaining_quantity + fillsSum (matchStep acc oid).fills =
      acc.taker.remaining_quantity + fillsSum acc.fills ∧
    (matchStep acc oid).taker.filled_quantity - fillsSum (matchStep acc oid).fills =
      acc.taker.filled_quantity - fillsSum acc.fills := by
  by_cases hrem : acc.taker.remaining_quantity ≤ 0
  · simp [matchStep, hrem]
  · cases hl : lookupOrder acc.active oid with
    | none => simp [matchStep, hrem, hl]
    | some r =>
        simp only [matchStep, hrem, if_false, hl]
        constructor
        · split_ifs <;> simp [fillsSum_append, fillsSum]
        · split_ifs <;> simp [fillsSum_append, fillsSum]

theorem run_conserve (ids : List Nat) (acc : MatchAcc) :
    (runMatch acc ids).taker.remaining_quantity + fillsSum (runMatch acc ids).fills =
      acc.taker.remaining_quantity + fillsSum acc.fills ∧
    (runMatch acc ids).taker.filled_quantity - fillsSum (runMatch acc ids).fills =
      acc.taker.filled_quantity - fillsSum acc.fills := by
  induction ids generalizing acc with
  | nil => exact ⟨rfl, rfl⟩
  | cons oid rest ih =>
      rw [runMatch_cons]
      obtain ⟨ih1, ih2⟩ := ih (matchStep acc oid)
      obtain ⟨s1, s2⟩ := matchStep_conserve acc oid
      exact ⟨ih1.trans s1, ih2.trans s2⟩

theorem matchStep_rem_nonneg (acc : MatchAcc) (oid : Nat)
    (h : 0 ≤ acc.taker.remaining_quantity) :
    0 ≤ (matchStep acc oid).taker.remaining_quantity := by
  by_cases hrem : acc.taker.remaining_quantity ≤ 0
  · simpa [matchStep, hrem] using h
  · cases hl : lookupOrder acc.active oid with
    | none => simpa [matchStep, hrem, hl] using h
    | some r =>
        simp only [matchStep, hrem, if_false, hl]
        have hmin := min_le_left acc.taker.remaining_quantity r.remaining_quantity
        split_ifs <;> simp

theorem run_rem_nonneg (ids : List Nat) (acc : MatchAcc)
    (h : 0 ≤ acc.taker.remaining_quantity) :
    0 ≤ (runMatch acc ids).taker.remaining_quantity := by
  induction ids generalizing acc with
  | nil => exact h
  | cons oid rest ih =>
      rw [runMatch_cons]
      exact ih (matchStep acc oid) (matchStep_rem_nonneg acc oid h)

theorem matchStep_status_filled (acc : MatchAcc) (oid : Nat)
    (h : acc.taker.remaining_quantity ≤ 0 → acc.taker.status = OrderStatus.filled) :
    (matchStep acc oid).taker.remaining_quantity ≤ 0 →
      (matchStep acc oid).taker.status = OrderStatus.filled := by
  by_cases hrem : acc.taker.remaining_quantity ≤ 0
  · simpa [matchStep, hrem] using h
  · cases hl : lookupOrder acc.active oid with
    | none =>
        simp only [matchStep, hrem, if_false, hl]
        exact fun hc => hc.elim
    | some r =>
        simp only [matchStep, hrem, if_false, hl]
        split_ifs with h1 h2
        · intro _
          rfl
        · intro hle
          exact absurd hle h1
        · intro hle
          exact absurd hle h1

theorem run_status_filled (ids : List Nat) (acc : MatchAcc)
    (h : acc.taker.remaining_quantity ≤ 0 → acc.taker.status = OrderStatus.filled) :
    (runMatch acc ids).taker.remaining_quantity ≤ 0 →
      (runMatch acc ids).taker.status = OrderStatus.filled := by
  induction ids generalizing acc with
  | nil => exact h
  | cons oid rest ih =>
      rw [runMatch_cons]
      exact ih (matchStep acc oid) (matchStep_status_filled acc oid h)

theorem run_book_subset (ids : List Nat) (acc : MatchAcc) :
    ∀ x, x ∈ bookOrderIds (runMatch acc ids).book → x ∈ bookOrderIds acc.book := by
  induction ids generalizing acc with
  | nil => exact fun x => id
  | cons oid rest ih =>
      rw [runMatch_cons]
      intro x hx
      exact matchStep_book_subset acc oid x (ih (matchStep acc oid) x hx)

/-- The trade record built by one successful iteration of the matching loop
for taker state `acc` against resting order `r`. -/
def stepTrade (acc : MatchAcc) (r : Order) : Trade :=
  { symbol := acc.taker.symbol
    price := r.price.getD 0
    quantity := min acc.taker.remaining_quantity r.remaining_quantity
    aggressor_side := acc.taker.side
    maker_order_id := r.order_id
    taker_order_id := acc.taker.order_id }

/-- Exhaustive characterization of one matching-loop iteration: it is a
no-op on break or on a missing id, and otherwise produces exactly one trade
against the looked-up resting order. -/
theorem matchStep_cases (acc : MatchAcc) (oid : Nat) :
    (acc.taker.remaining_quantity ≤ 0 ∧ matchStep acc oid = acc) ∨
    (lookupOrder acc.active oid = none ∧ matchStep acc oid = acc) ∨
    ∃ r, lookupOrder acc.active oid = some r ∧
      ¬ acc.taker.remaining_quantity ≤ 0 ∧
      (matchStep acc oid).fills = acc.fills ++ [stepTrade acc r] ∧
      (matchStep acc oid).taker.remaining_quantity =
        acc.taker.remaining_quantity - min acc.taker.remaining_quantity r.remaining_quantity ∧
      (matchStep acc oid).taker.filled_quantity =
        acc.taker.filled_quantity + min acc.taker.remaining_quantity r.remaining_quantity := by
  by_cases hrem : acc.taker.remaining_quantity ≤ 0
  · exact Or.inl ⟨hrem, by unfold matchStep; rw [if_pos hrem]⟩
  · cases hl : lookupOrder acc.active oid with
    | none => exact Or.inr (Or.inl ⟨rfl, by simp [matchStep, hrem, hl]⟩)
    | some r =>
        refine Or.inr (Or.inr ⟨r, rfl, hrem, ?_, ?_, ?_⟩)
        · simp [matchStep, hrem, hl, stepTrade]
        · simp only [matchStep, hrem, if_false, hl]
          split_ifs <;> rfl
        · simp only [matchStep, hrem, if_false, hl]
          split_ifs <;> rfl

end RunLemmas

section WalkLemmas

theorem totalAvailable_eq_sum (a : List (Nat × Order)) (ids : List Nat) :
    totalAvailable a ids =
      ((ids.filterMap (lookupOrder a)).map (fun r => r.remaining_quantity)).sum := by
  unfold totalAvailable
  generalize (ids.filterMap (lookupOrder a)) = l
  induction l with
  | nil => simp
  | cons hd tl ih =>
      simp only [List.foldl_cons, List.map_cons, List.sum_cons]
      rw [show (0 : Int) + hd.remaining_quantity = hd.remaining_quantity + 0 by ring]
      have : ∀ (s : Int), tl.foldl (fun t r => t + r.remaining_quantity) s =
          s + (tl.map (fun r => r.remaining_quantity)).sum := by
        clear ih
        induction tl with
        | nil => intro s; simp
        | cons h2 t2 ih2 =>
            intro s
            simp only [List.foldl_cons, List.map_cons, List.sum_cons]
            rw [ih2]
            ring
      rw [this]
      ring

theorem totalAvailable_cons_some (a : List (Nat × Order)) (x : Nat) (xs : List Nat)
    (r : Order) (hl : lookupOrder a x = some r) :
    totalAvailable a (x :: xs) = r.remaining_quantity + totalAvailable a xs := by
  rw [totalAvailable_eq_sum, totalAvailable_eq_sum, List.filterMap_cons, hl]
  simp

theorem totalAvailable_congr (a a' : List (Nat × Order)) (ids : List Nat)
    (h : ∀ x ∈ ids, lookupOrder a x = lookupOrder a' x) :
    totalAvailable a ids = totalAvailable a' ids := by
  rw [totalAvailable_eq_sum, totalAvailable_eq_sum]
  have : ids.filterMap (lookupOrder a) = ids.filterMap (lookupOrder a') := by
    induction ids with
    | nil => rfl
    | cons hd tl ih =>
        rw [List.filterMap_cons, List.filterMap_cons,
          h hd (List.mem_cons_self _ _), ih (fun x hx => h x (List.mem_cons_of_mem _ hx))]
  rw [this]

theorem mem_marketable_buy {b : Book} {mp : Int} {oid : Nat}
    (h : oid ∈ b.get_marketable_orders OrderSide.buy mp) :
    ∃ p lv, (p, lv) ∈ b.levels ∧ oid ∈ lv.orders ∧ p ≤ mp := by
  unfold Book.get_marketable_orders at h
  simp only [List.mem_flatMap] at h
  obtain ⟨pl, hpl, hoid⟩ := h
  have hmem : pl ∈ b.levels := (List.takeWhile_sublist _).mem hpl
  have hpred := List.mem_takeWhile_imp hpl
  simp only [decide_eq_true_eq] at hpred
  exact ⟨pl.1, pl.2, hmem, hoid, hpred⟩

theorem mem_marketable_sell {b : Book} {mp : Int} {oid : Nat}
    (h : oid ∈ b.get_marketable_orders OrderSide.sell mp) :
    ∃ p lv, (p, lv) ∈ b.levels ∧ oid ∈ lv.orders ∧ mp ≤ p := by
  unfold Book.get_marketable_orders at h
  simp only [List.mem_flatMap] at h
  obtain ⟨pl, hpl, hoid⟩ := h
  have hmem : pl ∈ b.levels := by
    have := (List.takeWhile_sublist _).mem hpl
    exact (List.mem_reverse).mp this
  have hpred := List.mem_takeWhile_imp hpl
  simp only [decide_eq_true_eq] at hpred
  exact ⟨pl.1, pl.2, hmem, hoid, hpred⟩

theorem marketable_subset {b : Book} {side : OrderSide} {mp : Int} :
    ∀ oid ∈ b.get_marketable_orders side mp, oid ∈ bookOrderIds b := by
  intro oid h
  cases side with
  | buy =>
      obtain ⟨p, lv, hmem, hoid, _⟩ := mem_marketable_buy h
      exact mem_bookOrderIds hmem hoid
  | sell =>
      obtain ⟨p, lv, hmem, hoid, _⟩ := mem_marketable_sell h
      exact mem_bookOrderIds hmem hoid

theorem reverse_flatMap_perm (ls : List (Int × Level)) (f : (Int × Level) → List Nat) :
    (ls.reverse.flatMap f).Perm (ls.flatMap f) := by
  induction ls with
  | nil => simp
  | cons hd tl ih =>
      simp only [List.reverse_cons, List.flatMap_append, List.flatMap_cons,
        List.flatMap_nil, List.append_nil]
      exact (ih.append_right (f hd)).trans List.perm_append_comm

theorem marketable_nodup {b : Book} {active : List (Nat × Order)}
    (h : wellFormed b active = true) (side : OrderSide) (mp : Int) :
    (b.get_marketable_orders side mp).Nodup := by
  have hnd := wf_nodup h
  cases side with
  | buy =>
      have hsub : (b.get_marketable_orders OrderSide.buy mp).Sublist (bookOrderIds b) :=
        flatMap_sublist (List.takeWhile_sublist _) _
      exact hnd.sublist hsub
  | sell =>
      have hperm := reverse_flatMap_perm b.levels (fun pl => pl.2.orders)
      have hnd2 : (b.levels.reverse.flatMap (fun pl => pl.2.orders)).Nodup :=
        hperm.nodup_iff.mpr hnd
      have hsub : (b.get_marketable_orders OrderSide.sell mp).Sublist
          (b.levels.reverse.flatMap (fun pl => pl.2.orders)) :=
        flatMap_sublist (List.takeWhile_sublist _) _
      exact hnd2.sublist hsub

theorem marketable_ids_ok {b : Book} {active : List (Nat × Order)}
    (h : wellFormed b active = true) (side : OrderSide) (mp : Int) :
    ∀ oid ∈ b.get_marketable_orders side mp, ∃ r,
      lookupOrder active oid = some r ∧ r.order_id = oid ∧
      (∃ p, r.price = some p ∧
        (side = OrderSide.buy → p ≤ mp) ∧ (side = OrderSide.sell → mp ≤ p)) ∧
      0 < r.remaining_quantity := by
  intro oid hoid
  cases side with
  | buy =>
      obtain ⟨p, lv, hmem, hin, hle⟩ := mem_marketable_buy hoid
      obtain ⟨r, hl, hid, hpr, hq⟩ := wf_coherent h (p, lv) hmem oid hin
      refine ⟨r, hl, hid, ⟨p, hpr, fun _ => hle, ?_⟩, hq⟩
      intro hcon
      cases hcon
  | sell =>
      obtain ⟨p, lv, hmem, hin, hle⟩ := mem_marketable_sell hoid
      obtain ⟨r, hl, hid, hpr, hq⟩ := wf_coherent h (p, lv) hmem oid hin
      refine ⟨r, hl, hid, ⟨p, hpr, ?_, fun _ => hle⟩, hq⟩
      intro hcon
      cases hcon

end WalkLemmas

section RunSpecLemmas

/-- Every trade produced by a matching walk records the maker's id and the
maker's limit price, and that price satisfies any predicate `Q` known to
hold for the prices of the ids being walked. -/
theorem run_fills_good (Q : Nat → Int → Prop) :
    ∀ (ids : List Nat) (acc : MatchAcc),
    (∀ oid ∈ ids, ∀ r, lookupOrder acc.active oid = some r →
      r.order_id = oid ∧ ∃ p, r.price = some p ∧ Q oid p) →
    (∀ t ∈ acc.fills, (∃ r, lookupOrder acc.active t.maker_order_id = some r ∧
      r.price = some t.price) ∧ Q t.maker_order_id t.price) →
    ∀ t ∈ (runMatch acc ids).fills,
      (∃ r, lookupOrder (runMatch acc ids).active t.maker_order_id = some r ∧
        r.price = some t.price) ∧ Q t.maker_order_id t.price := by
  intro ids
  induction ids with
  | nil => intro acc h1 h2 t ht; exact h2 t ht
  | cons oid rest ih =>
      intro acc h1 h2
      rw [runMatch_cons]
      have htrans : ∀ k r0, lookupOrder acc.active k = some r0 →
          ∃ r1, lookupOrder (matchStep acc oid).active k = some r1 ∧
            r1.order_id = r0.order_id ∧ r1.price = r0.price := by
        intro k r0 hk
        have hpid := matchStep_priceId acc oid k
        rw [hk] at hpid
        cases hk1 : lookupOrder (matchStep acc oid).active k with
        | none => rw [hk1] at hpid; simp at hpid
        | some r1 =>
            rw [hk1] at hpid
            simp at hpid
            exact ⟨r1, rfl, hpid.1, hpid.2⟩
      have hback : ∀ k r1, lookupOrder (matchStep acc oid).active k = some r1 →
          ∃ r0, lookupOrder acc.active k = some r0 ∧
            r0.order_id = r1.order_id ∧ r0.price = r1.price := by
        intro k r1 hk
        have hpid := matchStep_priceId acc oid k
        rw [hk] at hpid
        cases hk0 : lookupOrder acc.active k with
        | none => rw [hk0] at hpid; simp at hpid
        | some r0 =>
            rw [hk0] at hpid
            simp at hpid
            exact ⟨r0, rfl, hpid.1.symm, hpid.2.symm⟩
      refine ih (matchStep acc oid) ?_ ?_
      · intro o2 ho2 r hr
        obtain ⟨r0, hl0, hid0, hpr0⟩ := hback o2 r hr
        obtain ⟨hid, p, hp, hQ⟩ := h1 o2 (List.mem_cons_of_mem _ ho2) r0 hl0
        exact ⟨hid0.symm.trans hid, p, hpr0 ▸ hp, hQ⟩
      · intro t ht
        rcases matchStep_cases acc oid with ⟨_, hstep⟩ | ⟨_, hstep⟩ |
            ⟨r, hl, hrem, hfills, _, _⟩
        · rw [hstep] at ht ⊢
          exact h2 t ht
        · rw [hstep] at ht ⊢
          exact h2 t ht
        · rw [hfills] at ht
          rcases List.mem_append.mp ht with hold | hnew
          · obtain ⟨⟨r0, hl0, hpr0⟩, hQ⟩ := h2 t hold
            obtain ⟨r1, hl1, hid1, hpr1⟩ := htrans t.maker_order_id r0 hl0
            exact ⟨⟨r1, hl1, hpr1 ▸ hpr0⟩, hQ⟩
          · obtain ⟨hid, p, hp, hQ⟩ := h1 oid (List.mem_cons_self _ _) r hl
            obtain ⟨r1, hl1, hid1, hpr1⟩ := htrans oid r hl
            rcases List.mem_singleton.mp hnew with rfl
            refine ⟨⟨r1, ?_, ?_⟩, ?_⟩
            · simpa [stepTrade, hid] using hl1
            · simp [stepTrade, hpr1, hp]
            · simpa [stepTrade, hp, hid] using hQ

/-- The maker ids of the fills of a matching walk are an initial segment of
the walked id list: the walk is consumed strictly front-first. -/
theorem run_fills_take :
    ∀ (ids : List Nat) (acc : MatchAcc),
    (∀ oid ∈ ids, ∃ r, lookupOrder acc.active oid = some r ∧ r.order_id = oid) →
    ∃ tl, (runMatch acc ids).fills = acc.fills ++ tl ∧
      tl.map (fun t => t.maker_order_id) = ids.take tl.length := by
  intro ids
  induction ids with
  | nil => intro acc _; exact ⟨[], by simp [runMatch_nil], by simp⟩
  | cons oid rest ih =>
      intro acc h
      by_cases hrem : acc.taker.remaining_quantity ≤ 0
      · rw [run_break _ _ hrem]
        exact ⟨[], by simp, by simp⟩
      · obtain ⟨r0, hl0, hid0⟩ := h oid (List.mem_cons_self _ _)
        rcases matchStep_cases acc oid with ⟨hbrk, _⟩ | ⟨hnone, _⟩ |
            ⟨r, hl, _, hfills, _, _⟩
        · exact absurd hbrk hrem
        · rw [hnone] at hl0; cases hl0
        · have hr : r = r0 := by rw [hl] at hl0; cases hl0; rfl
          subst hr
          rw [runMatch_cons]
          have htail : ∀ x ∈ rest, ∃ r1,
              lookupOrder (matchStep acc oid).active x = some r1 ∧ r1.order_id = x := by
            intro x hx
            obtain ⟨r1, hl1, hid1⟩ := h x (List.mem_cons_of_mem _ hx)
            have hpid := matchStep_priceId acc oid x
            rw [hl1] at hpid
            cases hk1 : lookupOrder (matchStep acc oid).active x with
            | none => rw [hk1] at hpid; simp at hpid
            | some r2 =>
                rw [hk1] at hpid
                simp at hpid
                exact ⟨r2, rfl, hpid.1.trans hid1⟩
          obtain ⟨tl, htl, hmap⟩ := ih (matchStep acc oid) htail
          refine ⟨stepTrade acc r :: tl, ?_, ?_⟩
          · rw [htl, hfills, List.append_assoc]
            rfl
          · simp only [List.map_cons, List.length_cons, List.take_succ_cons, hmap,
              stepTrade, hid0]

/-- If the walked ids can jointly supply at least the taker's remaining
quantity, the walk drives the remaining quantity to zero. -/
theorem run_full :
    ∀ (ids : List Nat) (acc : MatchAcc), ids.Nodup →
    (∀ oid ∈ ids, ∃ r, lookupOrder acc.active oid = some r ∧ 0 ≤ r.remaining_quantity) →
    acc.taker.remaining_quantity ≤ totalAvailable acc.active ids →
    (runMatch acc ids).taker.remaining_quantity ≤ 0 := by
  intro ids
  induction ids with
  | nil =>
      intro acc _ _ havail
      rw [runMatch_nil]
      have : totalAvailable acc.active [] = 0 := rfl
      omega
  | cons oid rest ih =>
      intro acc hnd h havail
      by_cases hrem : acc.taker.remaining_quantity ≤ 0
      · rw [run_break _ _ hrem]
        exact hrem
      · obtain ⟨r0, hl0, hr0⟩ := h oid (List.mem_cons_self _ _)
        rcases matchStep_cases acc oid with ⟨hbrk, _⟩ | ⟨hnone, _⟩ |
            ⟨r, hl, _, _, hrm, _⟩
        · exact absurd hbrk hrem
        · rw [hnone] at hl0; cases hl0
        · have hr : r = r0 := by rw [hl] at hl0; cases hl0; rfl
          subst hr
          rw [runMatch_cons]
          have hnotin : oid ∉ rest := (List.nodup_cons.mp hnd).1
          have hlooks : ∀ x ∈ rest,
              lookupOrder (matchStep acc oid).active x = lookupOrder acc.active x :=
            fun x hx => matchStep_active_ne acc oid x (fun he => hnotin (he ▸ hx))
          have havailc := totalAvailable_cons_some acc.active oid rest r hl0
          rcases le_total acc.taker.remaining_quantity r.remaining_quantity with hc | hc
          · have hz : (matchStep acc oid).taker.remaining_quantity ≤ 0 := by
              rw [hrm, min_eq_left hc]
              omega
            rw [run_break _ _ hz]
            exact hz
          · refine ih (matchStep acc oid) (List.nodup_cons.mp hnd).2 ?_ ?_
            · intro x hx
              obtain ⟨rx, hlx, h0x⟩ := h x (List.mem_cons_of_mem _ hx)
              exact ⟨rx, (hlooks x hx).trans hlx, h0x⟩
            · have havail2 : totalAvailable (matchStep acc oid).active rest =
                  totalAvailable acc.active rest :=
                totalAvailable_congr _ _ rest hlooks
              rw [hrm, min_eq_right hc, havail2]
              omega

/-- The taker's filled quantity never decreases along a walk whose ids all
resolve to resting orders with positive remaining quantity. -/
theorem run_filled_ge :
    ∀ (ids : List Nat) (acc : MatchAcc), ids.Nodup →
    (∀ oid ∈ ids, ∃ r, lookupOrder acc.active oid = some r ∧ 0 < r.remaining_quantity) →
    acc.taker.filled_quantity ≤ (runMatch acc ids).taker.filled_quantity := by
  intro ids
  induction ids with
  | nil => intro acc _ _; exact le_refl _
  | cons oid rest ih =>
      intro acc hnd h
      by_cases hrem : acc.taker.remaining_quantity ≤ 0
      · rw [run_break _ _ hrem]
      · obtain ⟨r0, hl0, hr0⟩ := h oid (List.mem_cons_self _ _)
        rcases matchStep_cases acc oid with ⟨hbrk, _⟩ | ⟨hnone, _⟩ |
            ⟨r, hl, _, _, _, hfq⟩
        · exact absurd hbrk hrem
        · rw [hnone] at hl0; cases hl0
        · have hr : r = r0 := by rw [hl] at hl0; cases hl0; rfl
          subst hr
          rw [runMatch_cons]
          have hnotin : oid ∉ rest := (List.nodup_cons.mp hnd).1
          have hlooks : ∀ x ∈ rest,
              lookupOrder (matchStep acc oid).active x = lookupOrder acc.active x :=
            fun x hx => matchStep_active_ne acc oid x (fun he => hnotin (he ▸ hx))
          have hstep : acc.taker.filled_quantity ≤ (matchStep acc oid).taker.filled_quantity := by
            rw [hfq]
            have h1 : 0 < acc.taker.remaining_quantity := by omega
            have h2 : 0 < min acc.taker.remaining_quantity r.remaining_quantity :=
              lt_min h1 hr0
            omega
          refine hstep.trans (ih (matchStep acc oid) (List.nodup_cons.mp hnd).2 ?_)
          intro x hx
          obtain ⟨rx, hlx, h0x⟩ := h x (List.mem_cons_of_mem _ hx)
          exact ⟨rx, (hlooks x hx).trans hlx, h0x⟩

/-- A walk over a non-empty id list with a positive taker remainder makes
strict progress: the filled quantity strictly increases and at least one
trade is emitted. -/
theorem run_head_progress (oid : Nat) (rest : List Nat) (acc : MatchAcc)
    (hnd : (oid :: rest).Nodup)
    (h : ∀ x ∈ oid :: rest, ∃ r, lookupOrder acc.active x = some r ∧
      0 < r.remaining_quantity)
    (hrem : 0 < acc.taker.remaining_quantity) :
    acc.taker.filled_quantity < (runMatch acc (oid :: rest)).taker.filled_quantity ∧
    ∃ t tl, (runMatch acc (oid :: rest)).fills = acc.fills ++ t :: tl := by
  have hrem' : ¬ acc.taker.remaining_quantity ≤ 0 := by omega
  obtain ⟨r0, hl0, hr0⟩ := h oid (List.mem_cons_self _ _)
  rcases matchStep_cases acc oid with ⟨hbrk, _⟩ | ⟨hnone, _⟩ |
      ⟨r, hl, _, hfills, _, hfq⟩
  · exact absurd hbrk hrem'
  · rw [hnone] at hl0; cases hl0
  · have hr : r = r0 := by rw [hl] at hl0; cases hl0; rfl
    subst hr
    rw [runMatch_cons]
    have hnotin : oid ∉ rest := (List.nodup_cons.mp hnd).1
    have hlooks : ∀ x ∈ rest,
        lookupOrder (matchStep acc oid).active x = lookupOrder acc.active x :=
      fun x hx => matchStep_active_ne acc oid x (fun he => hnotin (he ▸ hx))
    have htail : ∀ x ∈ rest, ∃ r1, lookupOrder (matchStep acc oid).active x = some r1 ∧
        0 < r1.remaining_quantity := by
      intro x hx
      obtain ⟨rx, hlx, h0x⟩ := h x (List.mem_cons_of_mem _ hx)
      exact ⟨rx, (hlooks x hx).trans hlx, h0x⟩
    constructor
    · have hstep : acc.taker.filled_quantity < (matchStep acc oid).taker.filled_quantity := by
        rw [hfq]
        have h2 : 0 < min acc.taker.remaining_quantity r.remaining_quantity :=
          lt_min hrem hr0
        omega
      exact hstep.trans_le (run_filled_ge rest (matchStep acc oid)
        (List.nodup_cons.mp hnd).2 htail)
    · obtain ⟨tl, htl⟩ := run_fills_append rest (matchStep acc oid)
      rw [htl, hfills, List.append_assoc]
      exact ⟨_, _, rfl⟩

end RunSpecLemmas

section ClaimSupport

theorem validate_quantity_pos {o : Order} (hv : validateOrder o = true) :
    0 < o.quantity := by
  by_cases h0 : o.quantity ≤ 0
  · rw [validateOrder, if_pos h0] at hv
    cases hv
  · omega

theorem submitOrder_route (e : Engine) (o : Order) (b : Book)
    (hrun : e.running = true) (hb : lookupBook e.books o.symbol = some b)
    (hv : validateOrder o = true) :
    submitOrder e o =
      (match o.order_type with
       | OrderType.market => processMarket (e.putOrder o.order_id o) o
       | OrderType.limit => processLimit (e.putOrder o.order_id o) o
       | OrderType.ioc => processIoc (e.putOrder o.order_id o) o
       | OrderType.fok => processFok (e.putOrder o.order_id o) o) := by
  simp only [submitOrder, hrun, Bool.not_true, Bool.false_eq_true, if_false, hb, hv]

theorem wf_putOrder {b : Book} {active : List (Nat × Order)} (o : Order)
    (h : wellFormed b active = true) (hfresh : o.order_id ∉ bookOrderIds b) :
    wellFormed b (upsertOrder active o.order_id o) = true := by
  unfold wellFormed at h ⊢
  simp only [Bool.and_eq_true, List.all_eq_true] at h ⊢
  obtain ⟨⟨hs, hn⟩, hlv⟩ := h
  refine ⟨⟨hs, hn⟩, ?_⟩
  intro pl hpl
  have h2 := hlv pl hpl
  simp only [Bool.and_eq_true, List.all_eq_true] at h2 ⊢
  refine ⟨h2.1, ?_⟩
  intro oid hoid
  have hne : oid ≠ o.order_id := fun he => hfresh (he ▸ mem_bookOrderIds hpl hoid)
  rw [lookup_upsert_ne _ _ _ _ hne]
  exact h2.2 oid hoid

theorem is_marketable_limit {o : Order} (hty : o.order_type = OrderType.limit)
    (bb ba : Option Int) : o.is_marketable bb ba = false := by
  unfold Order.is_marketable
  rw [hty]
  simp

theorem is_marketable_true_buy {o : Order} {bb ba : Option Int} {p : Int}
    (hty : o.order_type = OrderType.ioc ∨ o.order_type = OrderType.fok)
    (hp : o.price = some p) (hside : o.side = OrderSide.buy)
    (h : o.is_marketable bb ba = true) : ∃ a, ba = some a ∧ a ≠ 0 ∧ a ≤ p := by
  unfold Order.is_marketable at h
  have hmk : ¬ o.order_type = OrderType.market := by
    rcases hty with h1 | h1 <;> simp [h1]
  rw [if_neg hmk, if_pos hty, hp] at h
  rw [hside] at h
  cases hba : ba with
  | none => rw [hba] at h; simp at h
  | some a =>
      rw [hba] at h
      simp at h
      exact ⟨a, rfl, h.1, h.2⟩

theorem is_marketable_true_sell {o : Order} {bb ba : Option Int} {p : Int}
    (hty : o.order_type = OrderType.ioc ∨ o.order_type = OrderType.fok)
    (hp : o.price = some p) (hside : o.side = OrderSide.sell)
    (h : o.is_marketable bb ba = true) : ∃ a, bb = some a ∧ a ≠ 0 ∧ p ≤ a := by
  unfold Order.is_marketable at h
  have hmk : ¬ o.order_type = OrderType.market := by
    rcases hty with h1 | h1 <;> simp [h1]
  rw [if_neg hmk, if_pos hty, hp] at h
  rw [hside] at h
  cases hbb : bb with
  | none => rw [hbb] at h; simp at h
  | some a =>
      rw [hbb] at h
      simp at h
      exact ⟨a, rfl, h.1, h.2⟩

theorem matchStatus_ne_error (t : Order) : matchStatus t ≠ RStatus.error := by
  unfold matchStatus
  split
  · simp
  · split <;> simp

/-- When the head level is marketable for a BUY taker, the walk starts with
the whole head queue. -/
theorem walk_head_buy {b : Book} {p0 : Int} {lv0 : Level} {rest : List (Int × Level)}
    (hlev : b.levels = (p0, lv0) :: rest) {mp : Int} (hle : p0 ≤ mp) :
    ∃ t, b.get_marketable_orders OrderSide.buy mp = lv0.orders ++ t := by
  have hwalk : b.get_marketable_orders OrderSide.buy mp =
      (b.levels.takeWhile (fun pl => decide (pl.1 ≤ mp))).flatMap
        (fun pl => pl.2.orders) := rfl
  rw [hwalk, hlev, List.takeWhile_cons, if_pos (by simpa using hle), List.flatMap_cons]
  exact ⟨_, rfl⟩

/-- When the last level is marketable for a SELL taker, the walk starts with
the whole last queue. -/
theorem walk_last_sell {b : Book} {pn : Int} {lvn : Level}
    (hlast : b.levels.getLast? = some (pn, lvn)) {mp : Int} (hle : mp ≤ pn) :
    ∃ t, b.get_marketable_orders OrderSide.sell mp = lvn.orders ++ t := by
  have hwalk : b.get_marketable_orders OrderSide.sell mp =
      (b.levels.reverse.takeWhile (fun pl => decide (mp ≤ pl.1))).flatMap
        (fun pl => pl.2.orders) := rfl
  rw [hwalk]
  cases hrev : b.levels.reverse with
  | nil =>
      exfalso
      have hnil : b.levels = [] := by
        have := congrArg List.reverse hrev
        simpa using this
      rw [hnil] at hlast
      simp at hlast
  | cons hd tl =>
      have hhd : hd = (pn, lvn) := by
        have h1 : b.levels.reverse.head? = b.levels.getLast? := List.head?_reverse _
        rw [hrev, hlast] at h1
        simpa using h1
      subst hhd
      rw [List.takeWhile_cons, if_pos (by simpa using hle), List.flatMap_cons]
      exact ⟨_, rfl⟩

/-- With strictly ascending level prices, a BUY walk bounded by the best
(lowest) price consumes exactly the head level's queue. -/
theorem walk_best_buy {b : Book} {active : List (Nat × Order)}
    (h : wellFormed b active = true) {p0 : Int} {lv0 : Level}
    {rest : List (Int × Level)} (hlev : b.levels = (p0, lv0) :: rest) :
    b.get_marketable_orders OrderSide.buy p0 = lv0.orders := by
  have hwalk : b.get_marketable_orders OrderSide.buy p0 =
      (b.levels.takeWhile (fun pl => decide (pl.1 ≤ p0))).flatMap
        (fun pl => pl.2.orders) := rfl
  rw [hwalk, hlev, List.takeWhile_cons, if_pos (by simp)]
  have hrest : rest.takeWhile (fun pl => decide (pl.1 ≤ p0)) = [] := by
    cases hr : rest with
    | nil => rfl
    | cons hd tl =>
        have hsort := wf_sorted h
        rw [hlev, hr] at hsort
        simp only [List.map_cons] at hsort
        have hlt : p0 < hd.1 := (List.chain'_cons.mp hsort).1
        rw [List.takeWhile_cons, if_neg (by simp; omega)]
  rw [hrest]
  simp

/-- With strictly ascending level prices, a SELL walk bounded by the best
(highest) price consumes exactly the last level's queue. -/
theorem walk_best_sell {b : Book} {active : List (Nat × Order)}
    (h : wellFormed b active = true) {pn : Int} {lvn : Level}
    (hlast : b.levels.getLast? = some (pn, lvn)) :
    b.get_marketable_orders OrderSide.sell pn = lvn.orders := by
  have hwalk : b.get_marketable_orders OrderSide.sell pn =
      (b.levels.reverse.takeWhile (fun pl => decide (pn ≤ pl.1))).flatMap
        (fun pl => pl.2.orders) := rfl
  rw [hwalk]
  cases hrev : b.levels.reverse with
  | nil =>
      exfalso
      have hnil : b.levels = [] := by
        have := congrArg List.reverse hrev
        simpa using this
      rw [hnil] at hlast
      simp at hlast
  | cons hd tl =>
      have hhd : hd = (pn, lvn) := by
        have h1 : b.levels.reverse.head? = b.levels.getLast? := List.head?_reverse _
        rw [hrev, hlast] at h1
        simpa using h1
      subst hhd
      rw [List.takeWhile_cons, if_pos (by simp)]
      have hrest : tl.takeWhile (fun pl => decide (pn ≤ pl.1)) = [] := by
        cases hr : tl with
        | nil => rfl
        | cons hd2 tl2 =>
            have hsort := wf_sorted h
            have hsortrev : (b.levels.reverse.map Prod.fst).Chain'
                (fun a c => c < a) := by
              rw [List.map_reverse]
              exact List.chain'_reverse.mpr hsort
            rw [hrev, hr] at hsortrev
            simp only [List.map_cons] at hsortrev
            have hlt : hd2.1 < pn := (List.chain'_cons.mp hsortrev).1
            rw [List.takeWhile_cons, if_neg (by simp; omega)]
      rw [hrest]
      simp

/-- Price-ordered levels produce a price-ordered flattened walk. -/
theorem flatMap_price_pairwise (R : Int → Int → Prop) (hrefl : ∀ x, R x x)
    (active : List (Nat × Order)) :
    ∀ (L : List (Int × Level)),
    (∀ pl ∈ L, ∀ oid ∈ pl.2.orders, restingPrice active oid = pl.1) →
    (L.map Prod.fst).Pairwise R →
    ((L.flatMap (fun pl => pl.2.orders)).map (restingPrice active)).Pairwise R := by
  intro L
  induction L with
  | nil => intro _ _; simp
  | cons hd tl ih =>
      intro hcoh hsort
      simp only [List.flatMap_cons, List.map_append, List.pairwise_append]
      refine ⟨?_, ?_, ?_⟩
      · refine List.pairwise_of_forall_mem_list ?_
        intro x hx y hy
        obtain ⟨ox, hox, rfl⟩ := List.mem_map.mp hx
        obtain ⟨oy, hoy, rfl⟩ := List.mem_map.mp hy
        rw [hcoh hd (List.mem_cons_self _ _) ox hox,
          hcoh hd (List.mem_cons_self _ _) oy hoy]
        exact hrefl _
      · refine ih ?_ ?_
        · intro pl hpl oid hoid
          exact hcoh pl (List.mem_cons_of_mem _ hpl) oid hoid
        · simp only [List.map_cons] at hsort
          exact (List.pairwise_cons.mp hsort).2
      · intro x hx y hy
        obtain ⟨ox, hox, rfl⟩ := List.mem_map.mp hx
        obtain ⟨oy, hoy, rfl⟩ := List.mem_map.mp hy
        obtain ⟨pl, hpl, hoy2⟩ := List.mem_flatMap.mp hoy
        rw [hcoh hd (List.mem_cons_self _ _) ox hox,
          hcoh pl (List.mem_cons_of_mem _ hpl) oy hoy2]
        simp only [List.map_cons] at hsort
        exact (List.pairwise_cons.mp hsort).1 pl.1 (List.mem_map_of_mem _ hpl)

/-- Trades produced by `_match_order` record their maker's id and limit
price as registered in the `active_orders` index passed in, and satisfy any
per-id property `Q` of the walked ids. -/
theorem matchOrder_fills_Q (b : Book) (active : List (Nat × Order)) (o : Order)
    (mp : Int) (Q : Nat → Int → Prop)
    (h1 : ∀ oid ∈ b.get_marketable_orders o.side mp, ∀ r,
      lookupOrder active oid = some r →
      r.order_id = oid ∧ ∃ p, r.price = some p ∧ Q oid p) :
    ∀ t ∈ (matchOrder b active o mp).2.fills,
      (∃ r, lookupOrder active t.maker_order_id = some r ∧
        r.price = some t.price) ∧ Q t.maker_order_id t.price := by
  intro t ht
  have ht2 : t ∈ (runMatch ⟨o, b, active, []⟩
      (b.get_marketable_orders o.side mp)).fills := by
    simpa [matchOrder] using ht
  have hgood := run_fills_good Q (b.get_marketable_orders o.side mp)
    ⟨o, b, active, []⟩ h1 (by intro t0 ht0; simp at ht0) t ht2
  obtain ⟨⟨r, hfin, hpr⟩, hQ⟩ := hgood
  have hpid := run_priceId (b.get_marketable_orders o.side mp)
    ⟨o, b, active, []⟩ t.maker_order_id
  rw [hfin] at hpid
  cases hl0 : lookupOrder active t.maker_order_id with
  | none =>
      rw [show lookupOrder (⟨o, b, active, []⟩ : MatchAcc).active t.maker_order_id =
        lookupOrder active t.maker_order_id from rfl, hl0] at hpid
      simp at hpid
  | some r0 =>
      rw [show lookupOrder (⟨o, b, active, []⟩ : MatchAcc).active t.maker_order_id =
        lookupOrder active t.maker_order_id from rfl, hl0] at hpid
      simp at hpid
      exact ⟨⟨r0, rfl, hpid.2 ▸ hpr⟩, hQ⟩

theorem findLevel_eq_none (p : Int) (ls : List (Int × Level))
    (h : ∀ pl ∈ ls, p ≠ pl.1) : findLevel p ls = none := by
  induction ls with
  | nil => rfl
  | cons hd tl ih =>
      obtain ⟨q, l⟩ := hd
      rw [findLevel, if_neg (h (q, l) (List.mem_cons_self _ _))]
      exact ih (fun pl hpl => h pl (List.mem_cons_of_mem _ hpl))

theorem findLevel_insertLevel (p : Int) (oid : Nat) (rem : Int) :
    ∀ (ls : List (Int × Level)),
    (ls.map Prod.fst).Chain' (fun x y => x < y) →
    ∀ lv, findLevel p ls = some lv →
    findLevel p (insertLevel p oid rem ls) =
      some ⟨lv.orders ++ [oid], lv.total_quantity + rem⟩ := by
  intro ls
  induction ls with
  | nil => intro _ lv h; simp [findLevel] at h
  | cons hd tl ih =>
      intro hsort lv h
      obtain ⟨q, l⟩ := hd
      by_cases hpq : p = q
      · rw [findLevel, if_pos hpq] at h
        cases h
        rw [insertLevel, if_neg (by omega), if_pos hpq, findLevel, if_pos hpq]
      · rw [findLevel, if_neg hpq] at h
        have hmem := findLevel_mem p tl lv h
        simp only [List.map_cons] at hsort
        have hall : ∀ k ∈ tl.map Prod.fst, q < k :=
          (List.pairwise_cons.mp ((List.chain'_iff_pairwise).mp hsort)).1
        have hq : q < p := by
          have := hall p (List.mem_map_of_mem Prod.fst hmem)
          exact this
        rw [insertLevel, if_neg (by omega), if_neg hpq, findLevel, if_neg hpq]
        exact ih ((List.chain'_cons'.mp hsort).2) lv h

theorem findLevel_setLevel_self (p : Int) (lv' : Level) :
    ∀ (ls : List (Int × Level)) (lv : Level), findLevel p ls = some lv →
    findLevel p (setLevel p lv' ls) = some lv' := by
  intro ls
  induction ls with
  | nil => intro lv h; simp [findLevel] at h
  | cons hd tl ih =>
      intro lv h
      obtain ⟨q, l⟩ := hd
      by_cases hpq : p = q
      · rw [setLevel, if_pos hpq, findLevel, if_pos hpq]
      · rw [findLevel, if_neg hpq] at h
        rw [setLevel, if_neg hpq, findLevel, if_neg hpq]
        exact ih lv h

theorem findLevel_deleteLevel_self (p : Int) :
    ∀ (ls : List (Int × Level)),
    (ls.map Prod.fst).Chain' (fun x y => x < y) →
    ∀ lv, findLevel p ls = some lv →
    findLevel p (deleteLevel p ls) = none := by
  intro ls
  induction ls with
  | nil => intro _ lv h; simp [findLevel] at h
  | cons hd tl ih =>
      intro hsort lv h
      obtain ⟨q, l⟩ := hd
      simp only [List.map_cons] at hsort
      have hall : ∀ k ∈ tl.map Prod.fst, q < k :=
        (List.pairwise_cons.mp ((List.chain'_iff_pairwise).mp hsort)).1
      by_cases hpq : p = q
      · rw [deleteLevel, if_pos hpq]
        refine findLevel_eq_none p tl ?_
        intro pl hpl he
        have := hall pl.1 (List.mem_map_of_mem Prod.fst hpl)
        omega
      · rw [findLevel, if_neg hpq] at h
        rw [deleteLevel, if_neg hpq, findLevel, if_neg hpq]
        exact ih ((List.chain'_cons'.mp hsort).2) lv h

end ClaimSupport

/-- C6: price-time priority of the matching walk.  The fills' maker ids are
an initial segment of `get_marketable_orders`'s snapshot (matching consumes
the walk head-first); the walk's prices are best-first (non-decreasing for
a BUY taker, who walks the ascending tree from the minimum, non-increasing
for a SELL taker); `add_order` appends to the tail of the FIFO queue at the
order's price level; and `remove_order` erases exactly the cancelled order,
keeping the surviving queue entries in their relative order. -/
theorem C6_price_time_priority (b : Book) (active : List (Nat × Order)) (o : Order)
    (mp : Int) (hwf : wellFormed b active = true) :
    ((matchOrder b active o mp).2.fills.map (fun t => t.maker_order_id) =
      (b.get_marketable_orders o.side mp).take
        (matchOrder b active o mp).2.fills.length) ∧
    (o.side = OrderSide.buy →
      ((b.get_marketable_orders OrderSide.buy mp).map (restingPrice active)).Pairwise
        (fun x y => x ≤ y)) ∧
    (o.side = OrderSide.sell →
      ((b.get_marketable_orders OrderSide.sell mp).map (restingPrice active)).Pairwise
        (fun x y => y ≤ x)) ∧
    (∀ o2 p lv, o2.price = some p → findLevel p b.levels = some lv →
      findLevel p ((b.add_order o2).1.levels) =
        some ⟨lv.orders ++ [o2.order_id], lv.total_quantity + o2.remaining_quantity⟩) ∧
    (∀ o2 p lv, o2.price = some p → findLevel p b.levels = some lv →
      o2.order_id ∈ lv.orders →
      (lv.orders.erase o2.order_id).Sublist lv.orders ∧
      findLevel p ((b.remove_order o2).1.levels) =
        (if (lv.orders.erase o2.order_id).isEmpty then none
         else some ⟨lv.orders.erase o2.order_id,
           lv.total_quantity - o2.remaining_quantity⟩)) := by
  have hcoh : ∀ pl ∈ b.levels, ∀ oid ∈ pl.2.orders,
      restingPrice active oid = pl.1 := by
    intro pl hpl oid hoid
    obtain ⟨r, hl, _, hpr, _⟩ := wf_coherent hwf pl hpl oid hoid
    unfold restingPrice
    simp [hl, hpr]
  have hpw : (b.levels.map Prod.fst).Pairwise (fun x y => x < y) :=
    (List.chain'_iff_pairwise).mp (wf_sorted hwf)
  refine ⟨?_, ?_, ?_, ?_, ?_⟩
  · have hids : ∀ oid ∈ b.get_marketable_orders o.side mp, ∃ r,
        lookupOrder active oid = some r ∧ r.order_id = oid := by
      intro oid hoid
      obtain ⟨r, hl, hid, _, _⟩ := marketable_ids_ok hwf o.side mp oid hoid
      exact ⟨r, hl, hid⟩
    obtain ⟨tl, htl, hmap⟩ :=
      run_fills_take (b.get_marketable_orders o.side mp) ⟨o, b, active, []⟩ hids
    have hfills : (matchOrder b active o mp).2.fills = tl := by
      simpa [matchOrder] using htl
    rw [hfills, hmap]
  · intro _
    have hwalk : b.get_marketable_orders OrderSide.buy mp =
        (b.levels.takeWhile (fun pl => decide (pl.1 ≤ mp))).flatMap
          (fun pl => pl.2.orders) := rfl
    rw [hwalk]
    refine flatMap_price_pairwise (fun x y => x ≤ y) (fun x => le_refl x) active _ ?_ ?_
    · intro pl hpl oid hoid
      exact hcoh pl ((List.takeWhile_sublist _).mem hpl) oid hoid
    · refine List.Pairwise.imp (fun hxy => le_of_lt hxy) ?_
      exact hpw.sublist ((List.takeWhile_sublist _).map Prod.fst)
  · intro _
    have hwalk : b.get_marketable_orders OrderSide.sell mp =
        (b.levels.reverse.takeWhile (fun pl => decide (mp ≤ pl.1))).flatMap
          (fun pl => pl.2.orders) := rfl
    rw [hwalk]
    refine flatMap_price_pairwise (fun x y => y ≤ x) (fun x => le_refl x) active _ ?_ ?_
    · intro pl hpl oid hoid
      refine hcoh pl ?_ oid hoid
      exact List.mem_reverse.mp ((List.takeWhile_sublist _).mem hpl)
    · refine List.Pairwise.imp (fun hxy => le_of_lt hxy) ?_
      have hrev : (b.levels.reverse.map Prod.fst).Pairwise (fun x y => y < x) := by
        rw [List.map_reverse]
        exact List.pairwise_reverse.mpr hpw
      exact hrev.sublist ((List.takeWhile_sublist _).map Prod.fst)
  · intro o2 p lv hp2 hf
    have hlevels : ((b.add_order o2).1).levels =
        insertLevel p o2.order_id o2.remaining_quantity b.levels := by
      unfold Book.add_order
      rw [hp2]
    rw [hlevels]
    exact findLevel_insertLevel p o2.order_id o2.remaining_quantity b.levels
      (wf_sorted hwf) lv hf
  · intro o2 p lv hp2 hf hmem
    refine ⟨lv.orders.erase_sublist o2.order_id, ?_⟩
    have hlevels : ((b.remove_order o2).1).levels =
        (if (lv.orders.erase o2.order_id).isEmpty then deleteLevel p b.levels
         else setLevel p ⟨lv.orders.erase o2.order_id,
           lv.total_quantity - o2.remaining_quantity⟩ b.levels) := by
      simp [Book.remove_order, hp2, hf, hmem]
    rw [hlevels]
    by_cases hempty : (lv.orders.erase o2.order_id).isEmpty
    · rw [if_pos hempty, if_pos hempty]
      exact findLevel_deleteLevel_self p b.levels (wf_sorted hwf) lv hf
    · rw [if_neg hempty, if_neg hempty]
      exact findLevel_setLevel_self p _ b.levels lv hf



section SubmitPathLemmas

/-- `matchStatus` can only report filled, partially filled or pending. -/
theorem matchStatus_ne_rejected (t : Order) : matchStatus t ≠ RStatus.rejected := by
  unfold matchStatus
  split
  · simp
  · split <;> simp

/-- Submitting an IOC or FOK order with a null price that passes
`_validate_order` stores the order, marks it REJECTED in the index, and
returns a rejected result, leaving the books untouched. -/
theorem submit_ioc_fok_null_price (e : Engine) (o : Order) (b : Book)
    (hrun : e.running = true)
    (hb : lookupBook e.books o.symbol = some b)
    (hty : o.order_type = OrderType.ioc ∨ o.order_type = OrderType.fok)
    (hp : o.price = none)
    (hv : validateOrder o = true) :
    submitOrder e o =
      ({ e with active_orders :=
          (upsertOrder (upsertOrder e.active_orders o.order_id o) o.order_id
            (withStatus o OrderStatus.rejected)) },
       mkRes RStatus.rejected) := by
  have hbooks : (e.putOrder o.order_id o).books = e.books := rfl
  rcases hty with hty | hty
  · simp only [submitOrder, hrun, Bool.not_true, Bool.false_eq_true, if_false, hb, hv,
      hty, processIoc, Engine.putOrder, hp]
    simp [withStatus, hty, hp]
  · simp only [submitOrder, hrun, Bool.not_true, Bool.false_eq_true, if_false, hb, hv,
      hty, processFok, Engine.putOrder, hp]
    simp [withStatus, hty, hp]

end SubmitPathLemmas

/-- The engine after the two C1 submits: BUY LIMIT 1.0 @ 49000, then
SELL LIMIT 1.0 @ 50000, on a fresh engine. -/
def c1_engine : Engine :=
  (submitOrder
    (submitOrder startEngine
      (mkOrder 1 OrderSide.buy OrderType.limit 100000000 (some 4900000000000))).1
    (mkOrder 2 OrderSide.sell OrderType.limit 100000000 (some 5000000000000))).1

/-- C1: the book keeps both sides in one red-black tree, `best_bid` is the
tree maximum and `best_ask` the tree minimum, and `Order.is_marketable` is
False for every LIMIT order.  Submitting BUY LIMIT 1.0 @ 49000 and then
SELL LIMIT 1.0 @ 50000 (the repository's own
`test_best_bid_offer_calculation` scenario, in 10⁻⁸ units) therefore leaves
a book whose reported best bid is 50000 — the SELL — and best ask is 49000
— the BUY: both sides are non-null and `best_bid.price < best_ask.price`
fails.  Moreover a BUY LIMIT at 50000, which crosses the resting ask at
50000, rests with status pending and no fills instead of matching. -/
theorem C1_crossed_book_code_bug :
    ((lookupBook c1_engine.books "BTC-USDT").map Book.bbo =
      some ⟨some ⟨5000000000000, 100000000, 1⟩, some ⟨4900000000000, 100000000, 1⟩⟩) ∧
    (¬ ((5000000000000 : Int) < 4900000000000)) ∧
    ((submitOrder c1_engine
      (mkOrder 3 OrderSide.buy OrderType.limit 100000000 (some 5000000000000))).2 =
      ⟨RStatus.pending, [], 0, 100000000⟩) := by decide

/-- The engine after the three C2 submits: SELL LIMIT 1.0 @ 50000,
SELL LIMIT 2.0 @ 50000, then MARKET BUY 0.5, on a fresh engine. -/
def c2_engine : Engine :=
  (submitOrder
    (submitOrder
      (submitOrder startEngine
        (mkOrder 1 OrderSide.sell OrderType.limit 100000000 (some 5000000000000))).1
      (mkOrder 2 OrderSide.sell OrderType.limit 200000000 (some 5000000000000))).1
    (mkOrder 3 OrderSide.buy OrderType.market 50000000 none)).1

/-- C2: a partial fill of a resting order never decrements the level's
`total_quantity`, and removal of a fully consumed order subtracts its
already-zeroed remaining quantity.  With SELL 1.0 and SELL 2.0 resting at
50000 and a MARKET BUY 0.5 (10⁻⁸ units), the level keeps
`total_quantity` = 3.0 while the queued orders' remaining quantities sum to
2.5. -/
theorem C2_aggregate_quantity_code_bug :
    ((lookupBook c2_engine.books "BTC-USDT").bind
      (fun b => findLevel 5000000000000 b.levels) = some ⟨[1, 2], 300000000⟩) ∧
    ((lookupOrder c2_engine.active_orders 1).map (fun r => r.remaining_quantity) =
      some 50000000) ∧
    ((lookupOrder c2_engine.active_orders 2).map (fun r => r.remaining_quantity) =
      some 200000000) ∧
    ((300000000 : Int) ≠ 50000000 + 200000000) := by decide

/-- C8 counterexample: an IOC order submitted with a null price is stored in
`active_orders` with terminal status REJECTED, yet `cancel_order` on it does
NOT return an error: it returns "cancelled" and rewrites the stored status
to CANCELLED, mutating engine state. -/
theorem C8_terminal_cancel_counterexample :
    let s1 := submitOrder startEngine (mkOrder 7 OrderSide.buy OrderType.ioc 100000000 none)
    let c1 := cancelOrder s1.1 7
    ((getOrder s1.1 7).map (fun r => r.status) = some OrderStatus.rejected) ∧
    (c1.2 = RStatus.cancelled) ∧
    ((getOrder c1.1 7).map (fun r => r.status) = some OrderStatus.cancelled) := by decide

/-- C8 amended: cancelling an order whose status is FILLED or CANCELLED
returns an error and leaves the whole engine state unchanged; the guard in
`cancel_order` does not cover REJECTED, so a stored REJECTED order is
cancellable (see the counterexample). -/
theorem C8_terminal_cancel_amended (e : Engine) (oid : Nat) (o : Order)
    (h : lookupOrder e.active_orders oid = some o)
    (hs : o.status = OrderStatus.filled ∨ o.status = OrderStatus.cancelled) :
    cancelOrder e oid = (e, RStatus.error) := by
  simp only [cancelOrder, h]
  rw [if_pos hs]

/-- C8 witness: cancelling a concrete CANCELLED order errors and changes
nothing. -/
theorem C8_terminal_cancel_witness :
    cancelOrder
      ⟨[("BTC-USDT", emptyBook "BTC-USDT")],
       [(5, withStatus (mkOrder 5 OrderSide.buy OrderType.limit 100000000 (some 4900000000000))
              OrderStatus.cancelled)], true⟩ 5 =
      (⟨[("BTC-USDT", emptyBook "BTC-USDT")],
        [(5, withStatus (mkOrder 5 OrderSide.buy OrderType.limit 100000000 (some 4900000000000))
               OrderStatus.cancelled)], true⟩, RStatus.error) :=
  C8_terminal_cancel_amended _ 5 _ rfl (Or.inr rfl)

/-- C9 counterexample: a MARKET order carrying a (non-null) price is not
rejected by validation — against a book with liquidity it simply executes
("filled"), the price being ignored apart from range checks. -/
theorem C9_price_validation_counterexample :
    let e1 := (submitOrder startEngine
      (mkOrder 1 OrderSide.sell OrderType.limit 100000000 (some 5000000000000))).1
    let r2 := submitOrder e1
      (mkOrder 2 OrderSide.buy OrderType.market 50000000 (some 77700000000000))
    (r2.2.status = RStatus.filled) ∧ (r2.2.status ≠ RStatus.rejected) ∧
    (r2.2.status ≠ RStatus.error) := by decide

/-- C9 amended: a LIMIT order with a null price fails validation (error
result, engine unchanged); an IOC or FOK order with a null price is
rejected during per-type processing and its symbol's book is untouched; a
MARKET order with a non-null price is NOT rejected. -/
theorem C9_price_validation_amended :
    (∀ e o, o.order_type = OrderType.limit → o.price = none →
      submitOrder e o = (e, mkRes RStatus.error)) ∧
    (∀ e o b, e.running = true → lookupBook e.books o.symbol = some b →
      (o.order_type = OrderType.ioc ∨ o.order_type = OrderType.fok) →
      o.price = none → validateOrder o = true →
      (submitOrder e o).2.status = RStatus.rejected ∧
      lookupBook (submitOrder e o).1.books o.symbol = some b) ∧
    (∀ e o p, o.order_type = OrderType.market → o.price = some p →
      (submitOrder e o).2.status ≠ RStatus.rejected) := by
  refine ⟨?_, ?_, ?_⟩
  · intro e o hty hp
    have hv : validateOrder o = false := by
      unfold validateOrder
      rw [hp, hty]
      split
      · rfl
      · split
        · rfl
        · split
          · rfl
          · simp
    cases hr : e.running with
    | true =>
        simp only [submitOrder, hr, Bool.not_true, Bool.false_eq_true, if_false, hv]
        cases lookupBook e.books o.symbol <;> simp
    | false =>
        simp [submitOrder, hr]
  · intro e o b hrun hb hty hp hv
    rw [submit_ioc_fok_null_price e o b hrun hb hty hp hv]
    exact ⟨rfl, hb⟩
  · intro e o p hty hp
    cases hr : e.running with
    | false => simp [submitOrder, hr, mkRes]
    | true =>
        simp only [submitOrder, hr, Bool.not_true, Bool.false_eq_true, if_false]
        cases hbk : lookupBook e.books o.symbol with
        | none => simp [mkRes]
        | some b =>
            cases hv : validateOrder o with
            | false => simp [hv, mkRes]
            | true =>
                simp only [hv, Bool.not_true, Bool.false_eq_true, if_false, hty]
                simp only [processMarket, putOrder_books, hbk]
                cases (if o.side = OrderSide.buy then b.bbo.best_ask else b.bbo.best_bid) with
                | none => simp [mkRes]
                | some lvl => exact matchStatus_ne_rejected _

/-- C9 witness: the three amended clauses at concrete inputs — a LIMIT
without price errors out with no state change, a FOK without price is
rejected with the book untouched, and a priced MARKET order is not
rejected. -/
theorem C9_price_validation_witness :
    (submitOrder startEngine (mkOrder 1 OrderSide.buy OrderType.limit 100000000 none) =
      (startEngine, mkRes RStatus.error)) ∧
    ((submitOrder startEngine (mkOrder 2 OrderSide.sell OrderType.fok 100000000 none)).2.status =
        RStatus.rejected ∧
      lookupBook (submitOrder startEngine
        (mkOrder 2 OrderSide.sell OrderType.fok 100000000 none)).1.books "BTC-USDT" =
        some (emptyBook "BTC-USDT")) ∧
    ((submitOrder startEngine
      (mkOrder 3 OrderSide.buy OrderType.market 50000000 (some 5000000000000))).2.status ≠
      RStatus.rejected) :=
  ⟨C9_price_validation_amended.1 startEngine _ rfl rfl,
   C9_price_validation_amended.2.1 startEngine _ (emptyBook "BTC-USDT") rfl rfl
     (Or.inr rfl) rfl (by decide),
   C9_price_validation_amended.2.2 startEngine _ 5000000000000 rfl rfl⟩

/-- C10: an IOC or FOK order with a null price, valid quantity and a
supported symbol on a running engine is stored into `active_orders` BEFORE
per-type processing rejects it, so `submit_order` answers "rejected" while
`get_order` subsequently returns the order with status REJECTED instead of
null. -/
theorem C10_rejected_indexed (e : Engine) (o : Order) (b : Book)
    (hrun : e.running = true)
    (hb : lookupBook e.books o.symbol = some b)
    (hty : o.order_type = OrderType.ioc ∨ o.order_type = OrderType.fok)
    (hp : o.price = none)
    (hv : validateOrder o = true) :
    (submitOrder e o).2.status = RStatus.rejected ∧
    getOrder (submitOrder e o).1 o.order_id =
      some { o with status := OrderStatus.rejected } := by
  rw [submit_ioc_fok_null_price e o b hrun hb hty hp hv]
  exact ⟨rfl, lookup_upsert_self _ _ _⟩

/-- C10 witness: a concrete IOC with null price on the fresh engine is
rejected yet retrievable through `get_order` with status REJECTED. -/
theorem C10_rejected_indexed_witness :
    (submitOrder startEngine (mkOrder 7 OrderSide.buy OrderType.ioc 100000000 none)).2.status =
      RStatus.rejected ∧
    getOrder (submitOrder startEngine
      (mkOrder 7 OrderSide.buy OrderType.ioc 100000000 none)).1 7 =
      some { mkOrder 7 OrderSide.buy OrderType.ioc 100000000 none with
               status := OrderStatus.rejected } :=
  C10_rejected_indexed startEngine _ (emptyBook "BTC-USDT") rfl rfl (Or.inl rfl) rfl
    (by decide)


/-- Concrete book for the C6 witness: an ask at 100 (order 1) and two asks
queued FIFO at 200 (orders 2 then 3), in 10⁻⁸ units. -/
def b6 : Book := ⟨"BTC-USDT", [(100, ⟨[1], 5⟩), (200, ⟨[2, 3], 7⟩)], 3, 3⟩

/-- Active-orders index matching `b6`. -/
def a6 : List (Nat × Order) :=
  [(1, mkOrder 1 OrderSide.sell OrderType.limit 5 (some 100)),
   (2, mkOrder 2 OrderSide.sell OrderType.limit 3 (some 200)),
   (3, mkOrder 3 OrderSide.sell OrderType.limit 4 (some 200))]

/-- Incoming BUY taker for the C6 witness. -/
def o6 : Order := mkOrder 9 OrderSide.buy OrderType.ioc 6 (some 200)

/-- C6 witness: the walk/fill ordering, append-on-insert, and
order-preserving cancel, at a concrete two-level book. -/
theorem C6_price_time_priority_witness :
    wellFormed b6 a6 = true ∧
    (((matchOrder b6 a6 o6 200).2.fills.map (fun t => t.maker_order_id) =
      (b6.get_marketable_orders o6.side 200).take
        (matchOrder b6 a6 o6 200).2.fills.length) ∧
    (o6.side = OrderSide.buy →
      ((b6.get_marketable_orders OrderSide.buy 200).map (restingPrice a6)).Pairwise
        (fun x y => x ≤ y)) ∧
    (o6.side = OrderSide.sell →
      ((b6.get_marketable_orders OrderSide.sell 200).map (restingPrice a6)).Pairwise
        (fun x y => y ≤ x)) ∧
    (∀ o2 p lv, o2.price = some p → findLevel p b6.levels = some lv →
      findLevel p ((b6.add_order o2).1.levels) =
        some ⟨lv.orders ++ [o2.order_id], lv.total_quantity + o2.remaining_quantity⟩) ∧
    (∀ o2 p lv, o2.price = some p → findLevel p b6.levels = some lv →
      o2.order_id ∈ lv.orders →
      (lv.orders.erase o2.order_id).Sublist lv.orders ∧
      findLevel p ((b6.remove_order o2).1.levels) =
        (if (lv.orders.erase o2.order_id).isEmpty then none
         else some ⟨lv.orders.erase o2.order_id,
           lv.total_quantity - o2.remaining_quantity⟩))) :=
  ⟨by decide, C6_price_time_priority b6 a6 o6 200 (by decide)⟩

/-- C3: every trade produced by matching a priced (LIMIT/IOC/FOK) taker
carries the maker's registered limit price as execution price, and that
price satisfies the taker's constraint: at most the taker's limit for a BUY
aggressor, at least it for a SELL aggressor. -/
theorem C3_trade_price (e : Engine) (o : Order) (b : Book) (pt : Int)
    (hrun : e.running = true)
    (hb : lookupBook e.books o.symbol = some b)
    (hv : validateOrder o = true)
    (hty : o.order_type = OrderType.limit ∨ o.order_type = OrderType.ioc ∨
      o.order_type = OrderType.fok)
    (hp : o.price = some pt)
    (hwf : wellFormed b e.active_orders = true)
    (hfresh : o.order_id ∉ bookOrderIds b) :
    ∀ t ∈ (submitOrder e o).2.fills,
      (∃ r, lookupOrder e.active_orders t.maker_order_id = some r ∧
        r.price = some t.price) ∧
      (o.side = OrderSide.buy → t.price ≤ pt) ∧
      (o.side = OrderSide.sell → pt ≤ t.price) := by
  rw [submitOrder_route e o b hrun hb hv]
  have hwf1 : wellFormed b (upsertOrder e.active_orders o.order_id o) = true :=
    wf_putOrder o hwf hfresh
  have hmain : ∀ t ∈ (matchOrder b (upsertOrder e.active_orders o.order_id o) o
      pt).2.fills,
      (∃ r, lookupOrder e.active_orders t.maker_order_id = some r ∧
        r.price = some t.price) ∧
      (o.side = OrderSide.buy → t.price ≤ pt) ∧
      (o.side = OrderSide.sell → pt ≤ t.price) := by
    have h1 : ∀ oid ∈ b.get_marketable_orders o.side pt, ∀ r,
        lookupOrder (upsertOrder e.active_orders o.order_id o) oid = some r →
        r.order_id = oid ∧ ∃ p, r.price = some p ∧
          (oid ∈ bookOrderIds b ∧
            (o.side = OrderSide.buy → p ≤ pt) ∧
            (o.side = OrderSide.sell → pt ≤ p)) := by
      intro oid hoid r hr
      obtain ⟨r2, hl2, hid2, ⟨p, hp2, hbuy, hsell⟩, _⟩ :=
        marketable_ids_ok hwf1 o.side pt oid hoid
      rw [hl2] at hr
      cases hr
      exact ⟨hid2, p, hp2, marketable_subset oid hoid, hbuy, hsell⟩
    intro t ht
    obtain ⟨⟨r, hl, hpr⟩, hin, hbuy, hsell⟩ :=
      matchOrder_fills_Q b (upsertOrder e.active_orders o.order_id o) o pt _ h1 t ht
    have hne : t.maker_order_id ≠ o.order_id := fun he => hfresh (he ▸ hin)
    rw [lookup_upsert_ne _ _ _ _ hne] at hl
    exact ⟨⟨r, hl, hpr⟩, hbuy, hsell⟩
  rcases hty with hty | hty | hty
  · simp only [hty, processLimit, Engine.putOrder, hb,
      is_marketable_limit hty, Bool.false_eq_true, if_false]
    intro t ht
    simp at ht
  · simp only [hty, processIoc, Engine.putOrder, hb, hp]
    by_cases hmk : o.is_marketable ((Book.bbo b).best_bid.map (fun l => l.price))
        ((Book.bbo b).best_ask.map (fun l => l.price))
    · simp only [hmk, Bool.not_true, Bool.false_eq_true, if_false]
      intro t ht
      exact hmain t ht
    · simp only [Bool.not_eq_true] at hmk
      simp only [hmk, Bool.not_false, if_true]
      intro t ht
      simp [mkRes] at ht
  · simp only [hty, processFok, Engine.putOrder, hb, hp]
    by_cases hmk : o.is_marketable ((Book.bbo b).best_bid.map (fun l => l.price))
        ((Book.bbo b).best_ask.map (fun l => l.price))
    · simp only [hmk, Bool.not_true, Bool.false_eq_true, if_false]
      by_cases hav : totalAvailable (upsertOrder e.active_orders o.order_id o)
          (b.get_marketable_orders o.side pt) < o.quantity
      · simp only [hav, if_true]
        intro t ht
        simp [mkRes] at ht
      · simp only [hav, if_false]
        intro t ht
        exact hmain t ht
    · simp only [Bool.not_eq_true] at hmk
      simp only [hmk, Bool.not_false, if_true]
      intro t ht
      simp [mkRes] at ht

/-- Concrete engine for the C3 witness: one resting SELL LIMIT 1.0 @ 50000
(10⁻⁸ units). -/
def e3 : Engine :=
  ⟨[("BTC-USDT", ⟨"BTC-USDT", [(5000000000000, ⟨[1], 100000000⟩)], 1, 1⟩)],
   [(1, mkOrder 1 OrderSide.sell OrderType.limit 100000000 (some 5000000000000))],
   true⟩

/-- Taker for the C3 witness: BUY IOC 0.5 @ 50000. -/
def o3 : Order := mkOrder 2 OrderSide.buy OrderType.ioc 50000000 (some 5000000000000)

/-- C3 witness: the trade produced against the concrete book carries the
maker's limit price, within the taker's bound. -/
theorem C3_trade_price_witness :
    wellFormed (⟨"BTC-USDT", [(5000000000000, ⟨[1], 100000000⟩)], 1, 1⟩ : Book)
      e3.active_orders = true ∧
    ∀ t ∈ (submitOrder e3 o3).2.fills,
      (∃ r, lookupOrder e3.active_orders t.maker_order_id = some r ∧
        r.price = some t.price) ∧
      (o3.side = OrderSide.buy → t.price ≤ 5000000000000) ∧
      (o3.side = OrderSide.sell → 5000000000000 ≤ t.price) :=
  ⟨by decide,
   C3_trade_price e3 o3 ⟨"BTC-USDT", [(5000000000000, ⟨[1], 100000000⟩)], 1, 1⟩
     5000000000000 rfl rfl (by decide) (Or.inr (Or.inl rfl)) rfl (by decide)
     (by decide)⟩

/-- C5: FOK atomicity.  A valid FOK order (priced, fresh) either fills
completely — the response is "filled", the trade quantities sum exactly to
the order quantity, and the stored order ends FILLED — or produces no
trades at all, with response "cancelled" and the symbol's book unchanged. -/
theorem C5_fok_atomicity (e : Engine) (o : Order) (b : Book) (pt : Int)
    (hrun : e.running = true)
    (hb : lookupBook e.books o.symbol = some b)
    (hv : validateOrder o = true)
    (hty : o.order_type = OrderType.fok)
    (hp : o.price = some pt)
    (hq : o.remaining_quantity = o.quantity)
    (hwf : wellFormed b e.active_orders = true)
    (hfresh : o.order_id ∉ bookOrderIds b) :
    ((submitOrder e o).2.status = RStatus.filled ∧
      fillsSum (submitOrder e o).2.fills = o.quantity ∧
      (getOrder (submitOrder e o).1 o.order_id).map (fun r => r.status) =
        some OrderStatus.filled) ∨
    ((submitOrder e o).2.fills = [] ∧
      (submitOrder e o).2.status = RStatus.cancelled ∧
      lookupBook (submitOrder e o).1.books o.symbol = some b) := by
  rw [submitOrder_route e o b hrun hb hv]
  have hwf1 : wellFormed b (upsertOrder e.active_orders o.order_id o) = true :=
    wf_putOrder o hwf hfresh
  have hq0 : 0 < o.quantity := validate_quantity_pos hv
  simp only [hty, processFok, Engine.putOrder, hb, hp]
  by_cases hmk : o.is_marketable ((Book.bbo b).best_bid.map (fun l => l.price))
      ((Book.bbo b).best_ask.map (fun l => l.price))
  · simp only [hmk, Bool.not_true, Bool.false_eq_true, if_false]
    by_cases hav : totalAvailable (upsertOrder e.active_orders o.order_id o)
        (b.get_marketable_orders o.side pt) < o.quantity
    · simp only [hav, if_true]
      exact Or.inr ⟨rfl, rfl, hb⟩
    · simp only [hav, if_false]
      refine Or.inl ?_
      have hnd : (b.get_marketable_orders o.side pt).Nodup :=
        marketable_nodup hwf1 o.side pt
      have hids : ∀ oid ∈ b.get_marketable_orders o.side pt, ∃ r,
          lookupOrder (upsertOrder e.active_orders o.order_id o) oid = some r ∧
          0 ≤ r.remaining_quantity := by
        intro oid hoid
        obtain ⟨r, hl, _, _, hrq⟩ := marketable_ids_ok hwf1 o.side pt oid hoid
        exact ⟨r, hl, le_of_lt hrq⟩
      have hfull := run_full (b.get_marketable_orders o.side pt)
        ⟨o, b, upsertOrder e.active_orders o.order_id o, []⟩ hnd hids
        (by show o.remaining_quantity ≤ totalAvailable
              (upsertOrder e.active_orders o.order_id o)
              (b.get_marketable_orders o.side pt)
            omega)
      have hnonneg := run_rem_nonneg (b.get_marketable_orders o.side pt)
        ⟨o, b, upsertOrder e.active_orders o.order_id o, []⟩
        (by show (0 : Int) ≤ o.remaining_quantity; omega)
      have hzero : (matchOrder b (upsertOrder e.active_orders o.order_id o) o
          pt).1.taker.remaining_quantity = 0 := le_antisymm hfull hnonneg
      have hcons := (run_conserve (b.get_marketable_orders o.side pt)
        ⟨o, b, upsertOrder e.active_orders o.order_id o, []⟩).1
      have hsum : fillsSum (matchOrder b (upsertOrder e.active_orders o.order_id o)
          o pt).2.fills = o.quantity := by
        have hcons2 : (matchOrder b (upsertOrder e.active_orders o.order_id o) o
              pt).1.taker.remaining_quantity +
            fillsSum (matchOrder b (upsertOrder e.active_orders o.order_id o) o
              pt).2.fills = o.remaining_quantity + fillsSum ([] : List Trade) :=
          hcons
        have hfe : fillsSum ([] : List Trade) = 0 := rfl
        omega
      have hstfin : (matchOrder b (upsertOrder e.active_orders o.order_id o) o
          pt).1.taker.status = OrderStatus.filled :=
        run_status_filled (b.get_marketable_orders o.side pt)
          ⟨o, b, upsertOrder e.active_orders o.order_id o, []⟩
          (by intro h0
              have h0' : o.remaining_quantity ≤ 0 := h0
              exact absurd h0' (by omega))
          (le_of_eq hzero)
      have hoid : (matchOrder b (upsertOrder e.active_orders o.order_id o) o
          pt).1.taker.order_id = o.order_id := (run_taker_fixed _ _).1
      refine ⟨?_, hsum, ?_⟩
      · show matchStatus (matchOrder b (upsertOrder e.active_orders o.order_id o)
            o pt).1.taker = RStatus.filled
        unfold matchStatus
        rw [if_pos (le_of_eq hzero)]
      · have htkr : (if 0 < (matchOrder b (upsertOrder e.active_orders o.order_id o)
              o pt).1.taker.remaining_quantity then
              { (matchOrder b (upsertOrder e.active_orders o.order_id o) o
                  pt).1.taker with status := OrderStatus.cancelled }
            else (matchOrder b (upsertOrder e.active_orders o.order_id o) o
              pt).1.taker) =
            (matchOrder b (upsertOrder e.active_orders o.order_id o) o pt).1.taker := by
          rw [if_neg (by omega)]
        simp only [getOrder, writeBack, htkr]
        rw [hoid, lookup_upsert_self]
        simp [hstfin]
  · simp only [Bool.not_eq_true] at hmk
    simp only [hmk, Bool.not_false, if_true]
    exact Or.inr ⟨rfl, rfl, hb⟩

/-- Engine for the C5 witness: one SELL LIMIT 1.0 @ 50000 resting. -/
def e5 : Engine :=
  ⟨[("BTC-USDT", ⟨"BTC-USDT", [(5000000000000, ⟨[1], 100000000⟩)], 1, 1⟩)],
   [(1, mkOrder 1 OrderSide.sell OrderType.limit 100000000 (some 5000000000000))],
   true⟩

/-- Taker for the C5 witness: BUY FOK 1.0 @ 50100. -/
def o5 : Order := mkOrder 2 OrderSide.buy OrderType.fok 100000000 (some 5010000000000)

/-- C5 witness: the concrete FOK order against the concrete book lands in one
of the two atomic outcomes (here it fills completely). -/
theorem C5_fok_atomicity_witness :
    wellFormed (⟨"BTC-USDT", [(5000000000000, ⟨[1], 100000000⟩)], 1, 1⟩ : Book)
      e5.active_orders = true ∧
    (((submitOrder e5 o5).2.status = RStatus.filled ∧
        fillsSum (submitOrder e5 o5).2.fills = o5.quantity ∧
        (getOrder (submitOrder e5 o5).1 o5.order_id).map (fun r => r.status) =
          some OrderStatus.filled) ∨
      ((submitOrder e5 o5).2.fills = [] ∧
        (submitOrder e5 o5).2.status = RStatus.cancelled ∧
        lookupBook (submitOrder e5 o5).1.books o5.symbol =
          some ⟨"BTC-USDT", [(5000000000000, ⟨[1], 100000000⟩)], 1, 1⟩)) :=
  ⟨by decide,
   C5_fok_atomicity e5 o5 ⟨"BTC-USDT", [(5000000000000, ⟨[1], 100000000⟩)], 1, 1⟩
     5010000000000 rfl rfl (by decide) rfl rfl rfl (by decide) (by decide)⟩

/-- C7: IOC non-resting.  After a valid priced IOC order (fresh in the book)
is submitted, the order's id rests in no price level of the submitted
symbol's book, every other symbol's book is untouched, a fill-less submit
answers "cancelled", and a positive unfilled remainder answers
"partially_filled" while the stored order record ends CANCELLED — the
remainder is forfeited, never rested. -/
theorem C7_ioc_non_resting (e : Engine) (o : Order) (b : Book) (pt : Int)
    (hrun : e.running = true)
    (hb : lookupBook e.books o.symbol = some b)
    (hv : validateOrder o = true)
    (hty : o.order_type = OrderType.ioc)
    (hp : o.price = some pt)
    (hq : o.remaining_quantity = o.quantity)
    (hf0 : o.filled_quantity = 0)
    (hwf : wellFormed b e.active_orders = true)
    (hfresh : o.order_id ∉ bookOrderIds b) :
    (∀ b2, lookupBook (submitOrder e o).1.books o.symbol = some b2 →
        o.order_id ∉ bookOrderIds b2) ∧
    (∀ s, s ≠ o.symbol →
        lookupBook (submitOrder e o).1.books s = lookupBook e.books s) ∧
    ((submitOrder e o).2.fills = [] →
        (submitOrder e o).2.status = RStatus.cancelled) ∧
    (0 < (submitOrder e o).2.remaining_quantity →
        (submitOrder e o).2.status = RStatus.partFilled ∧
        (getOrder (submitOrder e o).1 o.order_id).map (fun r => r.status) =
          some OrderStatus.cancelled) := by
  rw [submitOrder_route e o b hrun hb hv]
  have hwf1 : wellFormed b (upsertOrder e.active_orders o.order_id o) = true :=
    wf_putOrder o hwf hfresh
  have hq0 : 0 < o.quantity := validate_quantity_pos hv
  simp only [hty, processIoc, Engine.putOrder, hb, hp]
  by_cases hmk : o.is_marketable ((Book.bbo b).best_bid.map (fun l => l.price))
      ((Book.bbo b).best_ask.map (fun l => l.price))
  · simp only [hmk, Bool.not_true, Bool.false_eq_true, if_false]
    have hconsids : ∃ x xs, b.get_marketable_orders o.side pt = x :: xs := by
      cases hside : o.side with
      | buy =>
          obtain ⟨a, hba, _, hle⟩ := is_marketable_true_buy (Or.inl hty) hp hside hmk
          cases hlv : b.levels with
          | nil =>
              simp [Book.bbo, Book.bestAskNode, hlv] at hba
          | cons pl rest =>
              obtain ⟨p0, lv0⟩ := pl
              simp [Book.bbo, Book.bestAskNode, bboOfNode, hlv] at hba
              obtain ⟨t, hwalk⟩ := walk_head_buy hlv (show p0 ≤ pt by omega)
              have hne0 : lv0.orders ≠ [] :=
                wf_level_queues hwf (p0, lv0) (by rw [hlv]; exact List.mem_cons_self _ _)
              cases hlo : lv0.orders with
              | nil => exact absurd hlo hne0
              | cons q qs =>
                  refine ⟨q, qs ++ t, ?_⟩
                  rw [hwalk, hlo]
                  rfl
      | sell =>
          obtain ⟨a, hbb, _, hle⟩ := is_marketable_true_sell (Or.inl hty) hp hside hmk
          cases hlast : b.levels.getLast? with
          | none =>
              simp [Book.bbo, Book.bestBidNode, hlast] at hbb
          | some pl =>
              obtain ⟨pn, lvn⟩ := pl
              simp [Book.bbo, Book.bestBidNode, bboOfNode, hlast] at hbb
              obtain ⟨t, hwalk⟩ := walk_last_sell hlast (show pt ≤ pn by omega)
              have hmem : (pn, lvn) ∈ b.levels := by
                have h1 : b.levels.reverse.head? = some (pn, lvn) := by
                  rw [List.head?_reverse]
                  exact hlast
                have h2 : (pn, lvn) ∈ b.levels.reverse := List.mem_of_mem_head? h1
                exact (List.mem_reverse).mp h2
              have hne0 : lvn.orders ≠ [] := wf_level_queues hwf (pn, lvn) hmem
              cases hlo : lvn.orders with
              | nil => exact absurd hlo hne0
              | cons q qs =>
                  refine ⟨q, qs ++ t, ?_⟩
                  rw [hwalk, hlo]
                  rfl
    obtain ⟨x, xs, hids⟩ := hconsids
    have hnd := marketable_nodup hwf1 o.side pt
    rw [hids] at hnd
    have hok : ∀ z ∈ x :: xs, ∃ r,
        lookupOrder (upsertOrder e.active_orders o.order_id o) z = some r ∧
        0 < r.remaining_quantity := by
      intro z hz
      rw [← hids] at hz
      obtain ⟨r, hl, _, _, hrq⟩ := marketable_ids_ok hwf1 o.side pt z hz
      exact ⟨r, hl, hrq⟩
    have hprog := run_head_progress x xs
      ⟨o, b, upsertOrder e.active_orders o.order_id o, []⟩ hnd hok
      (by show (0 : Int) < o.remaining_quantity; omega)
    have hfilled : 0 < (matchOrder b (upsertOrder e.active_orders o.order_id o) o
        pt).1.taker.filled_quantity := by
      have h1 := hprog.1
      rw [← hids] at h1
      have h2 : o.filled_quantity <
          (runMatch ⟨o, b, upsertOrder e.active_orders o.order_id o, []⟩
            (b.get_marketable_orders o.side pt)).taker.filled_quantity := h1
      rw [hf0] at h2
      exact h2
    have hfne : (matchOrder b (upsertOrder e.active_orders o.order_id o) o
        pt).2.fills ≠ [] := by
      obtain ⟨t0, tl0, hfl⟩ := hprog.2
      intro hcon
      have hcon' : (runMatch ⟨o, b, upsertOrder e.active_orders o.order_id o, []⟩
          (b.get_marketable_orders o.side pt)).fills = [] := hcon
      rw [hids, hfl] at hcon'
      simp at hcon'
    have hoid : (matchOrder b (upsertOrder e.active_orders o.order_id o) o
        pt).1.taker.order_id = o.order_id := (run_taker_fixed _ _).1
    refine ⟨?_, ?_, ?_, ?_⟩
    · intro b2 h2
      have h2' : lookupBook (setBookL e.books o.symbol
          (matchOrder b (upsertOrder e.active_orders o.order_id o) o pt).1.book)
          o.symbol = some b2 := h2
      rw [lookupBook_setBookL_self e.books o.symbol b _ hb] at h2'
      replace h2' := Option.some.inj h2'
      subst h2'
      intro hmem
      have hmem' : o.order_id ∈ bookOrderIds
          (runMatch ⟨o, b, upsertOrder e.active_orders o.order_id o, []⟩
            (b.get_marketable_orders o.side pt)).book := hmem
      exact hfresh (run_book_subset _ _ o.order_id hmem')
    · intro s hs
      exact lookupBook_setBookL_ne e.books s o.symbol
        (matchOrder b (upsertOrder e.active_orders o.order_id o) o pt).1.book hs
    · intro hfe
      exact absurd (show (matchOrder b (upsertOrder e.active_orders o.order_id o) o
        pt).2.fills = [] from hfe) hfne
    · intro hrem
      have hrem' : 0 < (matchOrder b (upsertOrder e.active_orders o.order_id o) o
          pt).1.taker.remaining_quantity := hrem
      constructor
      · show matchStatus (matchOrder b (upsertOrder e.active_orders o.order_id o) o
            pt).1.taker = RStatus.partFilled
        unfold matchStatus
        rw [if_neg (by omega), if_pos hfilled]
      · have htkr : (if 0 < (matchOrder b (upsertOrder e.active_orders o.order_id o)
              o pt).1.taker.remaining_quantity then
              { (matchOrder b (upsertOrder e.active_orders o.order_id o) o
                  pt).1.taker with status := OrderStatus.cancelled }
            else (matchOrder b (upsertOrder e.active_orders o.order_id o) o
              pt).1.taker) =
            { (matchOrder b (upsertOrder e.active_orders o.order_id o) o
                pt).1.taker with status := OrderStatus.cancelled } := by
          rw [if_pos hrem']
        simp only [getOrder, writeBack, htkr]
        have hkey : ({ (matchOrder b (upsertOrder e.active_orders o.order_id o) o
            pt).1.taker with status := OrderStatus.cancelled } : Order).order_id =
            o.order_id := hoid
        rw [hkey, lookup_upsert_self]
        simp
  · simp only [Bool.not_eq_true] at hmk
    simp only [hmk, Bool.not_false, if_true]
    refine ⟨?_, ?_, fun _ => rfl, ?_⟩
    · intro b2 h2
      have h2' : lookupBook e.books o.symbol = some b2 := h2
      rw [hb] at h2'
      replace h2' := Option.some.inj h2'
      subst h2'
      exact hfresh
    · intro s hs
      trivial
    · intro hcon
      exact absurd (show (0 : Int) < 0 from hcon) (by omega)

/-- Engine for the C7 witness: one SELL LIMIT 1.0 @ 50000 resting. -/
def e7 : Engine :=
  ⟨[("BTC-USDT", ⟨"BTC-USDT", [(5000000000000, ⟨[1], 100000000⟩)], 1, 1⟩)],
   [(1, mkOrder 1 OrderSide.sell OrderType.limit 100000000 (some 5000000000000))],
   true⟩

/-- Taker for the C7 witness: BUY IOC 2.0 @ 50100, leaving a 1.0 remainder. -/
def o7 : Order := mkOrder 2 OrderSide.buy OrderType.ioc 200000000 (some 5010000000000)

/-- C7 witness: the concrete IOC order partially fills, its remainder is
forfeited, and it never rests in any book. -/
theorem C7_ioc_non_resting_witness :
    (0 : Int) < (submitOrder e7 o7).2.remaining_quantity ∧
    ((∀ b2, lookupBook (submitOrder e7 o7).1.books o7.symbol = some b2 →
        o7.order_id ∉ bookOrderIds b2) ∧
      (∀ s, s ≠ o7.symbol →
        lookupBook (submitOrder e7 o7).1.books s = lookupBook e7.books s) ∧
      ((submitOrder e7 o7).2.fills = [] →
        (submitOrder e7 o7).2.status = RStatus.cancelled) ∧
      (0 < (submitOrder e7 o7).2.remaining_quantity →
        (submitOrder e7 o7).2.status = RStatus.partFilled ∧
        (getOrder (submitOrder e7 o7).1 o7.order_id).map (fun r => r.status) =
          some OrderStatus.cancelled)) :=
  ⟨by decide,
   C7_ioc_non_resting e7 o7 ⟨"BTC-USDT", [(5000000000000, ⟨[1], 100000000⟩)], 1, 1⟩
     5010000000000 rfl rfl (by decide) rfl rfl rfl rfl (by decide) (by decide)⟩

/-- Engine for the C4 counterexample: asks 0.5 @ 50000 (id 1) and
1.0 @ 50100 (id 2) resting. -/
def e4 : Engine :=
  ⟨[("BTC-USDT", ⟨"BTC-USDT",
      [(5000000000000, ⟨[1], 50000000⟩), (5010000000000, ⟨[2], 100000000⟩)],
      2, 2⟩)],
   [(1, mkOrder 1 OrderSide.sell OrderType.limit 50000000 (some 5000000000000)),
    (2, mkOrder 2 OrderSide.sell OrderType.limit 100000000 (some 5010000000000))],
   true⟩

/-- Taker for the C4 counterexample: MARKET BUY 1.0, no price. -/
def o4 : Order := mkOrder 3 OrderSide.buy OrderType.market 100000000 none

/-- C4 counterexample: a MARKET BUY 1.0 against asks 0.5 @ 50000 and
1.0 @ 50100 fills only the 0.5 resting at the single best level and stops,
although the book still holds 1.0 of untouched liquidity at 50100 — the
walk is bounded by the best price, not unbounded as the spec claims. -/
theorem C4_market_routing_counterexample :
    (submitOrder e4 o4).2.status = RStatus.partFilled ∧
    (submitOrder e4 o4).2.filled_quantity = 50000000 ∧
    (submitOrder e4 o4).2.remaining_quantity = 50000000 ∧
    fillsSum (submitOrder e4 o4).2.fills = 50000000 ∧
    ((lookupBook (submitOrder e4 o4).1.books "BTC-USDT").map
      (fun b2 => findLevel 5010000000000 b2.levels)) =
      some (some ⟨[2], 100000000⟩) ∧
    (getOrder (submitOrder e4 o4).1 2).map (fun r => r.remaining_quantity) =
      some 100000000 := by
  decide

/-- C4 (amended): MARKET routing as the code implements it.  The submit
fails with the "no liquidity" error exactly when the book's single
level tree is empty (both sides live in one tree); otherwise the walk is
bounded by the BEST price — for a BUY every trade executes at the lowest
level's price, for a SELL at the highest level's price, deeper levels are
never touched; and the order never rests: its id is in no level of any
book afterwards, other symbols' books being untouched. -/
theorem C4_market_routing_amended (e : Engine) (o : Order) (b : Book)
    (hrun : e.running = true)
    (hb : lookupBook e.books o.symbol = some b)
    (hv : validateOrder o = true)
    (hty : o.order_type = OrderType.market)
    (hwf : wellFormed b e.active_orders = true)
    (hfresh : o.order_id ∉ bookOrderIds b) :
    (b.levels = [] →
      (submitOrder e o).2.status = RStatus.error ∧
      (submitOrder e o).1 = e.putOrder o.order_id o) ∧
    (b.levels ≠ [] → (submitOrder e o).2.status ≠ RStatus.error) ∧
    (∀ p0 lv0 rest, b.levels = (p0, lv0) :: rest → o.side = OrderSide.buy →
      ∀ t ∈ (submitOrder e o).2.fills, t.price = p0) ∧
    (∀ pn lvn, b.levels.getLast? = some (pn, lvn) → o.side = OrderSide.sell →
      ∀ t ∈ (submitOrder e o).2.fills, t.price = pn) ∧
    (∀ b2, lookupBook (submitOrder e o).1.books o.symbol = some b2 →
      o.order_id ∉ bookOrderIds b2) ∧
    (∀ s, s ≠ o.symbol →
      lookupBook (submitOrder e o).1.books s = lookupBook e.books s) := by
  rw [submitOrder_route e o b hrun hb hv]
  have hwf1 : wellFormed b (upsertOrder e.active_orders o.order_id o) = true :=
    wf_putOrder o hwf hfresh
  simp only [hty, processMarket, Engine.putOrder, hb]
  cases hside : o.side with
  | buy =>
      rw [if_pos rfl]
      cases hlv : b.levels with
      | nil =>
          have hba : (Book.bbo b).best_ask = none := by
            simp [Book.bbo, Book.bestAskNode, hlv]
          simp only [hba]
          refine ⟨fun _ => ⟨rfl, True.intro⟩, ?_, ?_, ?_, ?_, ?_⟩
          · intro hne
            exact absurd rfl hne
          · intro p0 lv0 rest h
            simp at h
          · intro pn lvn h
            simp at h
          · intro b2 h2
            have h2' : lookupBook e.books o.symbol = some b2 := h2
            rw [hb] at h2'
            replace h2' := Option.some.inj h2'
            subst h2'
            exact hfresh
          · intro s hs
            trivial
      | cons pl rest1 =>
          obtain ⟨p0, lv0⟩ := pl
          have hba : (Book.bbo b).best_ask = some (bboOfNode (p0, lv0)) := by
            simp [Book.bbo, Book.bestAskNode, hlv]
          simp only [hba]
          refine ⟨?_, ?_, ?_, ?_, ?_, ?_⟩
          · intro h
            simp at h
          · intro _ hcon
            exact matchStatus_ne_error _
              (show matchStatus (matchOrder b (upsertOrder e.active_orders o.order_id o)
                o (bboOfNode (p0, lv0)).price).1.taker = RStatus.error from hcon)
          · intro p1 lv1 rest2 h _
            injection h with h1 h2
            injection h1 with hA hB
            subst hA
            subst hB
            intro t ht
            have ht' : t ∈ (matchOrder b (upsertOrder e.active_orders o.order_id o)
                o p0).2.fills := ht
            have hwb : b.get_marketable_orders OrderSide.buy p0 = lv0.orders :=
              walk_best_buy hwf1 hlv
            have h1 : ∀ oid ∈ b.get_marketable_orders o.side p0, ∀ r,
                lookupOrder (upsertOrder e.active_orders o.order_id o) oid = some r →
                r.order_id = oid ∧ ∃ p, r.price = some p ∧ p = p0 := by
              rw [hside, hwb]
              intro oid hoid r hr
              obtain ⟨r1, hl1, hid1, hpr1, _⟩ := wf_coherent hwf1 (p0, lv0)
                (by rw [hlv]; exact List.mem_cons_self _ _) oid hoid
              rw [hl1] at hr
              replace hr := Option.some.inj hr
              subst hr
              exact ⟨hid1, p0, hpr1, rfl⟩
            exact (matchOrder_fills_Q b (upsertOrder e.active_orders o.order_id o)
              o p0 (fun x p => p = p0) h1 t ht').2
          · intro pn lvn h hcon
            simp at hcon
          · intro b2 h2
            have h2' : lookupBook (setBookL e.books o.symbol
                (matchOrder b (upsertOrder e.active_orders o.order_id o) o
                  (bboOfNode (p0, lv0)).price).1.book) o.symbol = some b2 := h2
            rw [lookupBook_setBookL_self e.books o.symbol b _ hb] at h2'
            replace h2' := Option.some.inj h2'
            subst h2'
            intro hmem
            have hmem' : o.order_id ∈ bookOrderIds
                (runMatch ⟨o, b, upsertOrder e.active_orders o.order_id o, []⟩
                  (b.get_marketable_orders o.side (bboOfNode (p0, lv0)).price)).book :=
              hmem
            exact hfresh (run_book_subset _ _ o.order_id hmem')
          · intro s hs
            exact lookupBook_setBookL_ne e.books s o.symbol
              (matchOrder b (upsertOrder e.active_orders o.order_id o) o
                (bboOfNode (p0, lv0)).price).1.book hs
  | sell =>
      rw [if_neg (by decide)]
      cases hlast : b.levels.getLast? with
      | none =>
          have hrev : b.levels.reverse = [] := by
            have h1 : b.levels.reverse.head? = none := by
              rw [List.head?_reverse]
              exact hlast
            exact List.head?_eq_none_iff.mp h1
          have hnil : b.levels = [] := by
            have := congrArg List.reverse hrev
            simpa using this
          have hbb : (Book.bbo b).best_bid = none := by
            simp [Book.bbo, Book.bestBidNode, hlast]
          simp only [hbb]
          refine ⟨fun _ => ⟨rfl, True.intro⟩, ?_, ?_, ?_, ?_, ?_⟩
          · intro hne
            exact absurd hnil hne
          · intro p0 lv0 rest h hcon
            simp at hcon
          · intro pn lvn h
            simp at h
          · intro b2 h2
            have h2' : lookupBook e.books o.symbol = some b2 := h2
            rw [hb] at h2'
            replace h2' := Option.some.inj h2'
            subst h2'
            exact hfresh
          · intro s hs
            trivial
      | some pl =>
          obtain ⟨pn, lvn⟩ := pl
          have hbb : (Book.bbo b).best_bid = some (bboOfNode (pn, lvn)) := by
            simp [Book.bbo, Book.bestBidNode, hlast]
          simp only [hbb]
          refine ⟨?_, ?_, ?_, ?_, ?_, ?_⟩
          · intro hnil
            rw [hnil] at hlast
            simp at hlast
          · intro _ hcon
            exact matchStatus_ne_error _
              (show matchStatus (matchOrder b (upsertOrder e.active_orders o.order_id o)
                o (bboOfNode (pn, lvn)).price).1.taker = RStatus.error from hcon)
          · intro p1 lv1 rest2 h hcon
            simp at hcon
          · intro pn1 lvn1 h _
            injection h with h1
            injection h1 with hA hB
            subst hA
            subst hB
            intro t ht
            have ht' : t ∈ (matchOrder b (upsertOrder e.active_orders o.order_id o)
                o pn).2.fills := ht
            have hwb : b.get_marketable_orders OrderSide.sell pn = lvn.orders :=
              walk_best_sell hwf1 hlast
            have hmem : (pn, lvn) ∈ b.levels := by
              have h1 : b.levels.reverse.head? = some (pn, lvn) := by
                rw [List.head?_reverse]
                exact hlast
              have h2 : (pn, lvn) ∈ b.levels.reverse := List.mem_of_mem_head? h1
              exact (List.mem_reverse).mp h2
            have h1 : ∀ oid ∈ b.get_marketable_orders o.side pn, ∀ r,
                lookupOrder (upsertOrder e.active_orders o.order_id o) oid = some r →
                r.order_id = oid ∧ ∃ p, r.price = some p ∧ p = pn := by
              rw [hside, hwb]
              intro oid hoid r hr
              obtain ⟨r1, hl1, hid1, hpr1, _⟩ := wf_coherent hwf1 (pn, lvn) hmem oid hoid
              rw [hl1] at hr
              replace hr := Option.some.inj hr
              subst hr
              exact ⟨hid1, pn, hpr1, rfl⟩
            exact (matchOrder_fills_Q b (upsertOrder e.active_orders o.order_id o)
              o pn (fun x p => p = pn) h1 t ht').2
          · intro b2 h2
            have h2' : lookupBook (setBookL e.books o.symbol
                (matchOrder b (upsertOrder e.active_orders o.order_id o) o
                  (bboOfNode (pn, lvn)).price).1.book) o.symbol = some b2 := h2
            rw [lookupBook_setBookL_self e.books o.symbol b _ hb] at h2'
            replace h2' := Option.some.inj h2'
            subst h2'
            intro hmem2
            have hmem2' : o.order_id ∈ bookOrderIds
                (runMatch ⟨o, b, upsertOrder e.active_orders o.order_id o, []⟩
                  (b.get_marketable_orders o.side (bboOfNode (pn, lvn)).price)).book :=
              hmem2
            exact hfresh (run_book_subset _ _ o.order_id hmem2')
          · intro s hs
            exact lookupBook_setBookL_ne e.books s o.symbol
              (matchOrder b (upsertOrder e.active_orders o.order_id o) o
                (bboOfNode (pn, lvn)).price).1.book hs

/-- C4 witness: the amended MARKET routing law at the concrete two-level
book — the walk is bounded at the best level and the order never rests. -/
theorem C4_market_routing_witness :
    wellFormed (⟨"BTC-USDT", [(5000000000000, ⟨[1], 50000000⟩), (5010000000000, ⟨[2], 100000000⟩)], 2, 2⟩ : Book) e4.active_orders = true ∧
    (((⟨"BTC-USDT", [(5000000000000, ⟨[1], 50000000⟩), (5010000000000, ⟨[2], 100000000⟩)], 2, 2⟩ : Book).levels = [] →
        (submitOrder e4 o4).2.status = RStatus.error ∧
        (submitOrder e4 o4).1 = e4.putOrder o4.order_id o4) ∧
      ((⟨"BTC-USDT", [(5000000000000, ⟨[1], 50000000⟩), (5010000000000, ⟨[2], 100000000⟩)], 2, 2⟩ : Book).levels ≠ [] → (submitOrder e4 o4).2.status ≠ RStatus.error) ∧
      (∀ p0 lv0 rest, (⟨"BTC-USDT", [(5000000000000, ⟨[1], 50000000⟩), (5010000000000, ⟨[2], 100000000⟩)], 2, 2⟩ : Book).levels = (p0, lv0) :: rest → o4.side = OrderSide.buy →
        ∀ t ∈ (submitOrder e4 o4).2.fills, t.price = p0) ∧
      (∀ pn lvn, (⟨"BTC-USDT", [(5000000000000, ⟨[1], 50000000⟩), (5010000000000, ⟨[2], 100000000⟩)], 2, 2⟩ : Book).levels.getLast? = some (pn, lvn) → o4.side = OrderSide.sell →
        ∀ t ∈ (submitOrder e4 o4).2.fills, t.price = pn) ∧
      (∀ b2, lookupBook (submitOrder e4 o4).1.books o4.symbol = some b2 →
        o4.order_id ∉ bookOrderIds b2) ∧
      (∀ s, s ≠ o4.symbol →
        lookupBook (submitOrder e4 o4).1.books s = lookupBook e4.books s)) :=
  ⟨by decide,
   C4_market_routing_amended e4 o4 (⟨"BTC-USDT", [(5000000000000, ⟨[1], 50000000⟩), (5010000000000, ⟨[2], 100000000⟩)], 2, 2⟩ : Book)
     rfl rfl (by decide) rfl (by decide) (by decide)⟩

end MatchSpec
